import Mathlib

/-!
# Verification of the AmethystWebEditor binary format stack

Shallow embedding of the NBT (tagged binary document) codec and the
region-container codec of the AmethystWebEditor repository
(`src/amethyst/io.ts`, `src/amethyst/tags.ts`, `src/amethyst/index.ts`,
`src/amethyst/compression.ts`).

Modelling conventions:
* A JS `Uint8Array` is a `List Nat` whose entries are bytes `0..255`;
  stores coerce values modulo 256 exactly as typed-array stores do.
* The `ByteReader` of `io.ts` keeps an explicit cursor over its buffer, so
  it is modelled as a structure `Rd` of (buffer, position); every read
  checks `pos + len > length` first ("EndOfStream"), exactly as
  `checkBounds` does.
* The `ByteWriter` only ever appends and finally exposes the written
  prefix, so a writer run is modelled by the list of bytes it produces.
* JS `DataView` accessors are big-endian with the `false` flag as in the
  source; signed reads are two's-complement decodes of the unsigned value.
* IEEE-754 `Float`/`Double` tag values are modelled by their 32/64-bit
  patterns (`getFloat32`/`setFloat32` transport exactly these bit
  patterns for the values our theorems use).
* JS strings (tag names, `TagString` values) are modelled by their UTF-8
  byte sequences, the exact bytes `TextEncoder`/`TextDecoder` transport.
* `throw` is modelled by `Except.error`; the thrown JS messages are
  mapped to the constructors of `NErr` below.
* The external `CompressionStream`/`DecompressionStream` Web codecs are
  not part of the repository; region operations take them as function
  parameters (`compress`, `dwa`).
-/

namespace AWE

/-! ## Two's-complement decodes (DataView signed getters) -/

/-- Signed value of a byte, as `DataView.getInt8` returns it. -/
def toI8 (b : Nat) : Int := if b < 128 then (b : Int) else (b : Int) - 256

/-- Signed value of a 16-bit big-endian quantity (`getInt16`). -/
def toI16 (u : Nat) : Int := if u < 32768 then (u : Int) else (u : Int) - 65536

/-- Signed value of a 32-bit big-endian quantity (`getInt32`). -/
def toI32 (u : Nat) : Int :=
  if u < 2147483648 then (u : Int) else (u : Int) - 4294967296

/-- Signed value of a 64-bit big-endian quantity (`getBigInt64`). -/
def toI64 (u : Nat) : Int :=
  if u < 9223372036854775808 then (u : Int) else (u : Int) - 18446744073709551616

/-! ## Big-endian byte encodings (DataView setters) -/

/-- The two big-endian bytes of `v % 2^16`. -/
def encU16 (v : Nat) : List Nat := [v / 256 % 256, v % 256]

/-- The four big-endian bytes of `v % 2^32`. -/
def encU32 (v : Nat) : List Nat :=
  [v / 16777216 % 256, v / 65536 % 256, v / 256 % 256, v % 256]

/-- The eight big-endian bytes of `v % 2^64`. -/
def encU64 (v : Nat) : List Nat :=
  [v / 72057594037927936 % 256, v / 281474976710656 % 256,
   v / 1099511627776 % 256, v / 4294967296 % 256,
   v / 16777216 % 256, v / 65536 % 256, v / 256 % 256, v % 256]

/-! ## ByteWriter primitives (`io.ts`, class `ByteWriter`)

Each primitive is the list of bytes the corresponding `write*` call
appends.  JS `setInt*`/`setUint*`/typed-array stores wrap modulo the
width, which `%` makes explicit (`Int.emod` is non-negative for a
positive modulus). -/

/-- `writeUByte` (`setUint8`). -/
def wUByte (v : Nat) : List Nat := [v % 256]

/-- `writeByte` (`setInt8`). -/
def wByte (v : Int) : List Nat := [(v % 256).toNat]

/-- `writeUShort` (`setUint16`, big-endian). -/
def wUShort (v : Nat) : List Nat := encU16 (v % 65536)

/-- `writeShort` (`setInt16`, big-endian). -/
def wShort (v : Int) : List Nat := encU16 ((v % 65536).toNat)

/-- `writeInt` (`setInt32`, big-endian). -/
def wInt (v : Int) : List Nat := encU32 ((v % 4294967296).toNat)

/-- `writeLong` (`setBigInt64`, big-endian). -/
def wLong (v : Int) : List Nat := encU64 ((v % 18446744073709551616).toNat)

/-- `writeBytes` (`Uint8Array.set`; stores coerce modulo 256). -/
def wBytes (bs : List Nat) : List Nat := bs.map (· % 256)

/-! ## Errors

Constructors mirror the distinct JS exceptions of the NBT layer:
`"EndOfStream"` (ByteReader bounds check), `"Unknown NBT Tag Type ID"`
(`Tag.create`), `"Tag name cannot be null when writing name."`
(`Tag.write`), `"All tags in a TAG_List must be of the same type."`
(`TagList.writePayload`), `"Root tag must be a TAG_Compound"`
(`TagIO.read`), and the `RangeError` thrown by `new Int32Array(len)` /
`new BigInt64Array(len)` for a negative length.  `outOfFuel` is an
artefact of the bounded decoder and corresponds to no source behaviour;
theorems always supply enough fuel for it not to occur on the asserted
path. -/

inductive NErr where
  | endOfStream
  | outOfFuel
  | unknownTagType (id : Int)
  | nullName
  | mixedList
  | rootNotCompound (id : Int)
  | negArrayLength (len : Int)
deriving DecidableEq

deriving instance DecidableEq for Except

/-! ## ByteReader (`io.ts`, class `ByteReader`) -/

/-- A `ByteReader`: the underlying buffer and the read cursor. -/
structure Rd where
  buf : List Nat
  pos : Nat
deriving DecidableEq

/-- Bytes not yet consumed (used only to state theorems). -/
def Rd.rem (r : Rd) : List Nat := r.buf.drop r.pos

/-- `readUByte`. -/
def rdU8 (r : Rd) : Except NErr (Nat × Rd) :=
  if r.pos + 1 > r.buf.length then .error .endOfStream
  else .ok (r.buf.getD r.pos 0, ⟨r.buf, r.pos + 1⟩)

/-- `readByte` (signed). -/
def rdI8 (r : Rd) : Except NErr (Int × Rd) :=
  (rdU8 r).map (fun p => (toI8 p.1, p.2))

/-- `readUShort`. -/
def rdU16 (r : Rd) : Except NErr (Nat × Rd) :=
  if r.pos + 2 > r.buf.length then .error .endOfStream
  else .ok (r.buf.getD r.pos 0 * 256 + r.buf.getD (r.pos + 1) 0,
    ⟨r.buf, r.pos + 2⟩)

/-- `readShort` (signed). -/
def rdI16 (r : Rd) : Except NErr (Int × Rd) :=
  (rdU16 r).map (fun p => (toI16 p.1, p.2))

/-- The unsigned 32-bit big-endian quantity at the cursor. -/
def rdU32 (r : Rd) : Except NErr (Nat × Rd) :=
  if r.pos + 4 > r.buf.length then .error .endOfStream
  else .ok (r.buf.getD r.pos 0 * 16777216 + r.buf.getD (r.pos + 1) 0 * 65536 +
    r.buf.getD (r.pos + 2) 0 * 256 + r.buf.getD (r.pos + 3) 0,
    ⟨r.buf, r.pos + 4⟩)

/-- `readInt` (signed). -/
def rdI32 (r : Rd) : Except NErr (Int × Rd) :=
  (rdU32 r).map (fun p => (toI32 p.1, p.2))

/-- The unsigned 64-bit big-endian quantity at the cursor. -/
def rdU64 (r : Rd) : Except NErr (Nat × Rd) :=
  if r.pos + 8 > r.buf.length then .error .endOfStream
  else .ok (r.buf.getD r.pos 0 * 72057594037927936 +
    r.buf.getD (r.pos + 1) 0 * 281474976710656 +
    r.buf.getD (r.pos + 2) 0 * 1099511627776 +
    r.buf.getD (r.pos + 3) 0 * 4294967296 +
    r.buf.getD (r.pos + 4) 0 * 16777216 + r.buf.getD (r.pos + 5) 0 * 65536 +
    r.buf.getD (r.pos + 6) 0 * 256 + r.buf.getD (r.pos + 7) 0,
    ⟨r.buf, r.pos + 8⟩)

/-- `readLong` (signed). -/
def rdI64 (r : Rd) : Except NErr (Int × Rd) :=
  (rdU64 r).map (fun p => (toI64 p.1, p.2))

/-- `readBytes` with a non-negative (unsigned-sourced) length. -/
def rdBytesN (n : Nat) (r : Rd) : Except NErr (List Nat × Rd) :=
  if r.pos + n > r.buf.length then .error .endOfStream
  else .ok ((r.buf.drop r.pos).take n, ⟨r.buf, r.pos + n⟩)

/-- `readBytes` with a signed length, as `TagByteArray.readPayload`
calls it: `checkBounds` compares `pos + len > length` in exact integer
arithmetic, a negative length passes the check, `subarray` then yields an
empty slice and the cursor moves backwards by `|len|`. -/
def rdBytesI (len : Int) (r : Rd) : Except NErr (List Nat × Rd) :=
  if (r.pos : Int) + len > (r.buf.length : Int) then .error .endOfStream
  else .ok ((r.buf.drop r.pos).take len.toNat, ⟨r.buf, ((r.pos : Int) + len).toNat⟩)

/-! ## The Tag model (`tags.ts`)

One constructor per concrete `Tag` subclass, in source order of the
`TagType` ids 0..12.  Every tag carries the `name` field of the abstract
`Tag` class (`null` ↦ `none`).  `TagList` keeps its mutable `listType`
field (an arbitrary signed byte after decoding, hence `Int`);
`TagCompound` keeps its insertion-ordered `Map` as an ordered list of
(key, tag) pairs with pairwise-distinct keys maintained by `mapSet`.
`Tags` and `Entries` are the element / entry sequences (plain lists,
spelled out so that the mutual recursion is structural). -/

mutual
inductive Tag where
  | tEnd (name : Option (List Nat))
  | tByte (name : Option (List Nat)) (v : Int)
  | tShort (name : Option (List Nat)) (v : Int)
  | tInt (name : Option (List Nat)) (v : Int)
  | tLong (name : Option (List Nat)) (v : Int)
  | tFloat (name : Option (List Nat)) (bits : Nat)
  | tDouble (name : Option (List Nat)) (bits : Nat)
  | tByteArray (name : Option (List Nat)) (v : List Int)
  | tString (name : Option (List Nat)) (v : List Nat)
  | tList (name : Option (List Nat)) (lt : Int) (elems : Tags)
  | tCompound (name : Option (List Nat)) (entries : Entries)
  | tIntArray (name : Option (List Nat)) (v : List Int)
  | tLongArray (name : Option (List Nat)) (v : List Int)
inductive Tags where
  | nil
  | cons (head : Tag) (tail : Tags)
inductive Entries where
  | nil
  | cons (key : List Nat) (val : Tag) (tail : Entries)
end

deriving instance DecidableEq for Tag, Tags, Entries

/-- The `type` getter: the `TagType` id of the constructor. -/
def tagTypeId : Tag → Nat
  | .tEnd _ => 0
  | .tByte _ _ => 1
  | .tShort _ _ => 2
  | .tInt _ _ => 3
  | .tLong _ _ => 4
  | .tFloat _ _ => 5
  | .tDouble _ _ => 6
  | .tByteArray _ _ => 7
  | .tString _ _ => 8
  | .tList _ _ _ => 9
  | .tCompound _ _ => 10
  | .tIntArray _ _ => 11
  | .tLongArray _ _ => 12

/-- The `name` field. -/
def tagName : Tag → Option (List Nat)
  | .tEnd n => n
  | .tByte n _ => n
  | .tShort n _ => n
  | .tInt n _ => n
  | .tLong n _ => n
  | .tFloat n _ => n
  | .tDouble n _ => n
  | .tByteArray n _ => n
  | .tString n _ => n
  | .tList n _ _ => n
  | .tCompound n _ => n
  | .tIntArray n _ => n
  | .tLongArray n _ => n

/-- Assignment to the mutable `name` field. -/
def setName (nm : Option (List Nat)) : Tag → Tag
  | .tEnd _ => .tEnd nm
  | .tByte _ v => .tByte nm v
  | .tShort _ v => .tShort nm v
  | .tInt _ v => .tInt nm v
  | .tLong _ v => .tLong nm v
  | .tFloat _ v => .tFloat nm v
  | .tDouble _ v => .tDouble nm v
  | .tByteArray _ v => .tByteArray nm v
  | .tString _ v => .tString nm v
  | .tList _ lt es => .tList nm lt es
  | .tCompound _ es => .tCompound nm es
  | .tIntArray _ v => .tIntArray nm v
  | .tLongArray _ v => .tLongArray nm v

/-- Length of a `Tags` sequence. -/
def tagsLength : Tags → Nat
  | .nil => 0
  | .cons _ ts => tagsLength ts + 1

/-- Whether every element of a `Tags` sequence has type id `ty`
(the homogeneity check of `TagList.writePayload`). -/
def tagsAllType (ty : Nat) : Tags → Bool
  | .nil => true
  | .cons t ts => tagTypeId t == ty && tagsAllType ty ts

/-- The keys of a compound's entry list. -/
def entryKeys : Entries → List (List Nat)
  | .nil => []
  | .cons k _ es => k :: entryKeys es

/-- JS `Map.get`: the value stored under `k`, if any. -/
def mapGet (k : List Nat) : Entries → Option Tag
  | .nil => none
  | .cons k' t es => if k' = k then some t else mapGet k es

/-- JS `Map.set`: replace in place if the key exists (keeping its
position), otherwise append. -/
def mapSet (k : List Nat) (t : Tag) : Entries → Entries
  | .nil => .cons k t .nil
  | .cons k' t' es => if k' = k then .cons k' t es else .cons k' t' (mapSet k t es)

/-- `TagCompound.set`: assigns `tag.name = name` and then stores the tag
under the key (`tags.ts` lines 475-478). -/
def compoundSet (k : List Nat) (t : Tag) (es : Entries) : Entries :=
  mapSet k (setName (some k) t) es

/-! ## Encoding (`Tag.write`, the `writePayload` overrides)

A successful run of the JS writer is the byte list it appends; a thrown
exception is `Except.error`.  All checks in the source happen before the
corresponding bytes are emitted, so the error/value structure is
faithful. -/

mutual
/-- The per-variant `writePayload` overrides of `tags.ts`. -/
def writePayload (t : Tag) : Except NErr (List Nat) :=
  match t with
  | .tEnd _ => .ok []
  | .tByte _ v => .ok (wByte v)
  | .tShort _ v => .ok (wShort v)
  | .tInt _ v => .ok (wInt v)
  | .tLong _ v => .ok (wLong v)
  | .tFloat _ bits => .ok (encU32 bits)
  | .tDouble _ bits => .ok (encU64 bits)
  | .tByteArray _ v =>
    .ok (wInt (v.length : Int) ++ wBytes (v.map (fun b => ((b % 256 : Int)).toNat)))
  | .tString _ v => .ok (wUShort v.length ++ wBytes v)
  | .tList _ lt es =>
    match es with
    | .nil => .ok (wByte lt ++ wInt 0)
    | .cons h t =>
      if tagsAllType (tagTypeId h) (.cons h t) then
        (writeTags (.cons h t)).map (fun bs =>
          wByte (tagTypeId h : Int) ++ wInt ((tagsLength (.cons h t) : Nat) : Int) ++ bs)
      else .error .mixedList
  | .tCompound _ es => (writeEntries es).map (fun bs => bs ++ wByte 0)
  | .tIntArray _ v => .ok (wInt (v.length : Int) ++ (v.map wInt).flatten)
  | .tLongArray _ v => .ok (wInt (v.length : Int) ++ (v.map wLong).flatten)
termination_by structural t
/-- Concatenated element payloads of a list (`for tag of tags:
tag.writePayload(s)`). -/
def writeTags (tl : Tags) : Except NErr (List Nat) :=
  match tl with
  | .nil => .ok []
  | .cons t ts => do
    let b ← writePayload t
    let bs ← writeTags ts
    .ok (b ++ bs)
termination_by structural tl
/-- `TagCompound.writePayload`'s loop body: each child is written with
`tag.write(s, true, true)`; the id/name/payload sequence of `Tag.write`
is inlined here (see `writeEntries_cons` for the equation with the
stand-alone `tagWrite`). -/
def writeEntries (el : Entries) : Except NErr (List Nat) :=
  match el with
  | .nil => .ok []
  | .cons _ t es => do
    let b ←
      match tagName t with
      | none => (.error .nullName : Except NErr (List Nat))
      | some nm =>
        (writePayload t).map (fun p =>
          wByte (tagTypeId t : Int) ++ wUShort nm.length ++ wBytes nm ++ p)
    let bs ← writeEntries es
    .ok (b ++ bs)
termination_by structural el
end

/-- `Tag.write(stream, writeId, writeName)`: optional id byte, optional
length-prefixed name (throws on a `null` name), then the payload. -/
def tagWrite (t : Tag) (writeId wantName : Bool) : Except NErr (List Nat) :=
  match wantName, tagName t with
  | true, none => .error .nullName
  | true, some nm =>
    (writePayload t).map (fun p =>
      (if writeId then wByte (tagTypeId t : Int) else []) ++
        wUShort nm.length ++ wBytes nm ++ p)
  | false, _ =>
    (writePayload t).map (fun p =>
      (if writeId then wByte (tagTypeId t : Int) else []) ++ p)

/-- The compound loop body is exactly `tag.write(s, true, true)`. -/
theorem writeEntries_cons (k : List Nat) (t : Tag) (es : Entries) :
    writeEntries (.cons k t es) = (do
      let b ← tagWrite t true true
      let bs ← writeEntries es
      .ok (b ++ bs)) := by
  rw [writeEntries]
  cases hn : tagName t <;> simp [tagWrite, hn]

/-- `TagIntArray.readPayload`'s loop: `len` big-endian `readInt`s. -/
def readI32s : Nat → Rd → Except NErr (List Int × Rd)
  | 0, r => .ok ([], r)
  | n + 1, r => do
    let (v, r) ← rdI32 r
    let (vs, r) ← readI32s n r
    .ok (v :: vs, r)

/-- `TagLongArray.readPayload`'s loop: `len` big-endian `readLong`s. -/
def readI64s : Nat → Rd → Except NErr (List Int × Rd)
  | 0, r => .ok ([], r)
  | n + 1, r => do
    let (v, r) ← rdI64 r
    let (vs, r) ← readI64s n r
    .ok (v :: vs, r)

/-! ## Decoding (`Tag.create` + the `readPayload` overrides)

The decoder is bounded by a fuel parameter (the JS recursion has no
static termination measure); `outOfFuel` never occurs on paths the
theorems assert.  `readPayload fuel tid r` is `Tag.create(tid)` followed
by `tag.readPayload(r)`: an id outside 0..12 fails with the
"Unknown NBT Tag Type ID" error before consuming input, exactly where
`Tag.create` throws. -/

/-- One fuel level of the three mutually recursive readers:
`pay` is `Tag.create(tid)` followed by the matching `readPayload`
override, `elems` is `TagList.readPayload`'s element loop, `ents` is
`TagCompound.readPayload`'s `while` loop carrying the map built so far.
The JS recursion has no static termination measure, so the decoder is
the fuel-indexed fixpoint `decAt`; `outOfFuel` corresponds to no source
behaviour and never occurs on paths the theorems assert. -/
structure DecSet where
  pay : Int → Rd → Except NErr (Tag × Rd)
  elems : Int → Nat → Rd → Except NErr (Tags × Rd)
  ents : Entries → Rd → Except NErr (Entries × Rd)

/-- The fuel-0 readers: a zero element count and the compound
terminator byte need no recursion, everything else is out of fuel. -/
def decZero : DecSet where
  pay := fun _ _ => .error .outOfFuel
  elems := fun _ n r =>
    match n with
    | 0 => .ok (.nil, r)
    | _ + 1 => .error .outOfFuel
  ents := fun acc r => do
    let (tid, r) ← rdI8 r
    if tid = 0 then .ok (acc, r) else .error .outOfFuel

/-- One more fuel level on top of `prev`.  `pay`: an id outside 0..12
fails with the "Unknown NBT Tag Type ID" error before consuming input,
exactly where `Tag.create` throws; decoded tags have `name = none`
(`Tag.create` leaves `name` null) and the compound loop assigns names.
`elems`: a list payload decodes `count` payloads with the declared type.
`ents`: read a (signed) id byte, stop on End, otherwise read the
length-prefixed name, decode the child, assign `tag.name = name` and
`Map.set` it under the name. -/
def decStep (prev : DecSet) : DecSet where
  pay := fun tid r =>
    match tid with
    | 0 => .ok (.tEnd none, r)
    | 1 => (rdI8 r).map (fun p => (.tByte none p.1, p.2))
    | 2 => (rdI16 r).map (fun p => (.tShort none p.1, p.2))
    | 3 => (rdI32 r).map (fun p => (.tInt none p.1, p.2))
    | 4 => (rdI64 r).map (fun p => (.tLong none p.1, p.2))
    | 5 => (rdU32 r).map (fun p => (.tFloat none p.1, p.2))
    | 6 => (rdU64 r).map (fun p => (.tDouble none p.1, p.2))
    | 7 => do
      let (len, r) ← rdI32 r
      let (bs, r) ← rdBytesI len r
      .ok (.tByteArray none (bs.map toI8), r)
    | 8 => do
      let (len, r) ← rdU16 r
      let (bs, r) ← rdBytesN len r
      .ok (.tString none bs, r)
    | 9 => do
      let (lt, r) ← rdI8 r
      let (count, r) ← rdI32 r
      if count ≤ 0 then .ok (.tList none lt .nil, r)
      else do
        let (es, r) ← prev.elems lt count.toNat r
        .ok (.tList none lt es, r)
    | 10 => do
      let (es, r) ← prev.ents .nil r
      .ok (.tCompound none es, r)
    | 11 => do
      let (len, r) ← rdI32 r
      if len < 0 then .error (.negArrayLength len)
      else do
        let (vs, r) ← readI32s len.toNat r
        .ok (.tIntArray none vs, r)
    | 12 => do
      let (len, r) ← rdI32 r
      if len < 0 then .error (.negArrayLength len)
      else do
        let (vs, r) ← readI64s len.toNat r
        .ok (.tLongArray none vs, r)
    | _ => .error (.unknownTagType tid)
  elems := fun lt n r =>
    match n with
    | 0 => .ok (.nil, r)
    | n + 1 => do
      let (t, r) ← prev.pay lt r
      let (ts, r) ← prev.elems lt n r
      .ok (.cons t ts, r)
  ents := fun acc r => do
    let (tid, r) ← rdI8 r
    if tid = 0 then .ok (acc, r)
    else do
      let (nameLen, r) ← rdU16 r
      let (nameBytes, r) ← rdBytesN nameLen r
      let (t, r) ← prev.pay tid r
      prev.ents (mapSet nameBytes (setName (some nameBytes) t) acc) r

/-- The decoder with `fuel` levels of recursion available. -/
def decAt (fuel : Nat) : DecSet :=
  Nat.rec decZero (fun _ prev => decStep prev) fuel

/-- `Tag.create(tid)` + `tag.readPayload(r)` (see `decStep`). -/
def readPayload (fuel : Nat) (tid : Int) (r : Rd) : Except NErr (Tag × Rd) :=
  (decAt fuel).pay tid r

/-- `TagList.readPayload`'s element loop (see `decStep`). -/
def readElems (fuel : Nat) (lt : Int) (n : Nat) (r : Rd) :
    Except NErr (Tags × Rd) :=
  (decAt fuel).elems lt n r

/-- `TagCompound.readPayload`'s entry loop (see `decStep`). -/
def readEntries (fuel : Nat) (acc : Entries) (r : Rd) :
    Except NErr (Entries × Rd) :=
  (decAt fuel).ents acc r

/-! ## Document codec (`index.ts`, class `TagIO`) -/

/-- `TagIO.read`: check the root id byte is 10, read the root name
(standard mode) or leave it empty (network mode), then run the compound
entry loop.  Trailing bytes are ignored, as in the source. -/
def tagIoRead (fuel : Nat) (data : List Nat) (isNetworkPacket : Bool) :
    Except NErr Tag := do
  let r : Rd := ⟨data, 0⟩
  let (typeId, r) ← rdI8 r
  if typeId = 10 then do
    let (nm, r) ←
      if isNetworkPacket then (.ok (([] : List Nat), r) : Except NErr _)
      else do
        let (nameLen, r) ← rdU16 r
        if nameLen > 0 then rdBytesN nameLen r
        else .ok ([], r)
    let (es, _) ← readEntries fuel .nil r
    .ok (.tCompound (some nm) es)
  else .error (.rootNotCompound typeId)

/-- `TagIO.write`: emit the constant Compound id byte, then (standard
mode) the root name with `tag.name || ""` turning a null name into the
empty string, then the root's compound payload. -/
def tagIoWrite (t : Tag) (isNetworkPacket : Bool) : Except NErr (List Nat) := do
  let p ← writePayload t
  let namePart :=
    if isNetworkPacket then []
    else
      let nm := (tagName t).getD []
      wUShort nm.length ++ wBytes nm
  .ok (wByte 10 ++ namePart ++ p)

/-! ## Well-formedness

`wfTag t` says `t` is a tag the writer emits losslessly: scalar values in
their signed ranges (the JS setters wrap modulo the width), bit patterns
and lengths in range, list elements homogeneous with the stored
`listType` and unnamed (decoding leaves element names null), compound
entries named by their keys (what `set` and `readPayload` maintain), of
non-End type, and with pairwise-distinct keys (a `Map` invariant). -/

/-- Valid name bytes: a UTF-8 encoding short enough for `writeUShort`. -/
def wfName : Option (List Nat) → Bool
  | none => true
  | some nm => nm.length < 65536 && nm.all (· < 256)

mutual
/-- Well-formed tag (see section comment). -/
def wfTag : Tag → Bool
  | .tEnd n => wfName n
  | .tByte n v => wfName n && decide (-128 ≤ v) && decide (v < 128)
  | .tShort n v => wfName n && decide (-32768 ≤ v) && decide (v < 32768)
  | .tInt n v => wfName n && decide (-2147483648 ≤ v) && decide (v < 2147483648)
  | .tLong n v =>
    wfName n && decide (-9223372036854775808 ≤ v) &&
      decide (v < 9223372036854775808)
  | .tFloat n bits => wfName n && decide (bits < 4294967296)
  | .tDouble n bits => wfName n && decide (bits < 18446744073709551616)
  | .tByteArray n v =>
    wfName n && decide (v.length < 2147483648) &&
      v.all (fun b => decide (-128 ≤ b) && decide (b < 128))
  | .tString n v => wfName n && decide (v.length < 65536) && v.all (· < 256)
  | .tList n lt es =>
    wfName n &&
      (match es with
       | .nil => decide (-128 ≤ lt) && decide (lt < 128)
       | .cons h t =>
         decide (lt = (tagTypeId h : Int)) && tagsAllType (tagTypeId h) (.cons h t) &&
           decide (tagsLength (.cons h t) < 2147483648) && wfElems (.cons h t))
  | .tCompound n es =>
    wfName n && wfEntries es && decide (entryKeys es).Nodup
  | .tIntArray n v =>
    wfName n && decide (v.length < 2147483648) &&
      v.all (fun x => decide (-2147483648 ≤ x) && decide (x < 2147483648))
  | .tLongArray n v =>
    wfName n && decide (v.length < 2147483648) &&
      v.all (fun x =>
        decide (-9223372036854775808 ≤ x) && decide (x < 9223372036854775808))
/-- Well-formed, unnamed list elements. -/
def wfElems : Tags → Bool
  | .nil => true
  | .cons t ts => (tagName t == none) && wfTag t && wfElems ts
/-- Well-formed compound entries: the stored tag is named by its key and
is not an End tag. -/
def wfEntries : Entries → Bool
  | .nil => true
  | .cons k t es =>
    (tagName t == some k) && decide (tagTypeId t ≠ 0) && wfTag t && wfEntries es
end

mutual
/-- Fuel sufficient for `readPayload` to decode this tag. -/
def tagFuel : Tag → Nat
  | .tList _ _ es => elemsFuel es + 1
  | .tCompound _ es => entriesFuel es + 1
  | _ => 1
/-- Fuel sufficient for `readElems` over these elements. -/
def elemsFuel : Tags → Nat
  | .nil => 0
  | .cons t ts => Nat.max (tagFuel t) (elemsFuel ts) + 1
/-- Fuel sufficient for `readEntries` over these entries. -/
def entriesFuel : Entries → Nat
  | .nil => 0
  | .cons _ t es => Nat.max (tagFuel t) (entriesFuel es) + 1
end

/-! ## Compression layer (`compression.ts`) -/

inductive CompressionType where
  | none
  | gzip
  | zlib
  | raw
deriving DecidableEq

/-- The two named Web-codec formats the source passes to
`decompressWithAlgorithm` / `compress`. -/
inductive CFormat where
  | gzip
  | deflate
deriving DecidableEq

/-- `detectCompression`: magic-number sniffing over the first two bytes.
`b0 >> 4` is `b0 / 16` for a `Uint8Array` byte. -/
def detectCompression (data : List Nat) : CompressionType :=
  match data with
  | b0 :: b1 :: _ =>
    if b0 = 0x1F ∧ b1 = 0x8B then .gzip
    else if b0 % 16 = 8 then
      if b0 / 16 + 8 ≤ 7 then
        if (b0 * 256 + b1) % 31 = 0 then .zlib else .none
      else .none
    else .none
  | _ => .none

/-- `decompress`: auto-detect, return the input unchanged on `None`,
otherwise delegate to the external codec `dwa` (the model of
`decompressWithAlgorithm`, which is a Web API call, not repository
code). -/
def decompress (dwa : CFormat → List Nat → Except NErr (List Nat))
    (data : List Nat) : Except NErr (List Nat) :=
  match detectCompression data with
  | .none => .ok data
  | .gzip => dwa .gzip data
  | _ => dwa .deflate data

/-! ## Region container (`compression.ts`, class `RegionReader`)

The reader's single mutable `Uint8Array`/`DataView` pair is a `Buf`:
a size and the byte at each index.  `DataView` accessors and
`Uint8Array.set` throw a `RangeError` when the accessed span does not lie
entirely inside the buffer, and never write partially; `expandBuffer`
reallocates zero-filled.  `writeChunk` returns the result together with
the final buffer, because the JS object keeps its mutations when a write
throws midway.  The external pieces are parameters: `dwa` for
`decompressWithAlgorithm`, `compress` for `compress(_, 'deflate')`, and
`now` for `Math.floor(Date.now() / 1000)`. -/

/-- The region file's backing store. -/
structure Buf where
  size : Nat
  data : Nat → Nat

/-- Region-layer errors: the JS `RangeError` of an out-of-bounds
view access, the two `setLocation` overflow errors (`"File too large"`,
`"Chunk too large"`), and an NBT error escaping `TagIO.write`. -/
inductive RErr where
  | range
  | fileTooLarge
  | chunkTooLarge
  | nbt (e : NErr)
deriving DecidableEq

/-- `DataView.getUint8`. -/
def dvGetU8 (s : Buf) (o : Nat) : Except RErr Nat :=
  if o + 1 ≤ s.size then .ok (s.data o % 256) else .error .range

/-- The unsigned 32-bit big-endian word at `o` (`getInt32` reads the same
four bytes; every use in the source — the `!== 0` test, `>>> 8`,
`& 0xFF`, and the chunk length via `toI32` — factors through this
unsigned value). -/
def dvGetU32 (s : Buf) (o : Nat) : Except RErr Nat :=
  if o + 4 ≤ s.size then
    .ok (s.data o % 256 * 16777216 + s.data (o + 1) % 256 * 65536 +
      s.data (o + 2) % 256 * 256 + s.data (o + 3) % 256)
  else .error .range

/-- `Uint8Array.set` / multi-byte `DataView` store: all-or-nothing, and
stored values are coerced to bytes. -/
def dvSetBytes (s : Buf) (o : Nat) (bs : List Nat) : Except RErr Buf :=
  if o + bs.length ≤ s.size then
    .ok ⟨s.size,
      fun i => if o ≤ i ∧ i < o + bs.length then bs.getD (i - o) 0 % 256 else s.data i⟩
  else .error .range

/-- `expandBuffer`: fresh zero-filled buffer with the old contents copied
in (`writeChunk` only ever grows). -/
def expandBuffer (s : Buf) (newSize : Nat) : Buf :=
  ⟨newSize, fun i => if i < s.size then s.data i else 0⟩

/-- Slot index `(x & 31) + (z & 31) * 32`. -/
def chunkIndex (x z : Nat) : Nat := x % 32 + z % 32 * 32

/-- `getOffsetInfo`: the slot's 4-byte location-table word. -/
def getOffsetInfo (s : Buf) (x z : Nat) : Except RErr Nat :=
  dvGetU32 s (chunkIndex x z * 4)

/-- `hasChunk`: nonzero location-table word. -/
def hasChunk (s : Buf) (x z : Nat) : Except RErr Bool :=
  (getOffsetInfo s x z).map (fun info => decide (info ≠ 0))

/-- The `try { ... TagIO.read ... } catch { return null }` tail of
`readChunk`: any decompression or decode exception becomes `null`. -/
def tryParse (clean : Except NErr (List Nat)) (fuel : Nat) : Option Tag :=
  match clean >>= (fun c => tagIoRead fuel c false) with
  | .ok t => some t
  | .error _ => none

/-- `readChunk`: absent (`none`) for a zero location word, a sector
offset below 2, an out-of-range record, a bad length, or an unknown
compression type; decompress+decode failures are caught and also yield
`none`; bounds violations of the header reads outside the `try` block
throw (`RErr.range`). -/
def readChunk (dwa : CFormat → List Nat → Except NErr (List Nat)) (fuel : Nat)
    (s : Buf) (x z : Nat) : Except RErr (Option Tag) := do
  let info ← getOffsetInfo s x z
  if info = 0 then .ok none
  else
    let sectorOffset := info / 256
    if sectorOffset < 2 then .ok none
    else
      let fileOffset := sectorOffset * 4096
      if fileOffset ≥ s.size then .ok none
      else do
        let lengthU ← dvGetU32 s fileOffset
        let compressionType ← dvGetU8 s (fileOffset + 4)
        let dataLength : Int := toI32 lengthU - 1
        if dataLength ≤ 0 ∨ (fileOffset : Int) + 5 + dataLength > (s.size : Int) then
          .ok none
        else
          let rawData := (List.range dataLength.toNat).map
            (fun i => s.data (fileOffset + 5 + i) % 256)
          if compressionType = 1 then .ok (tryParse (dwa .gzip rawData) fuel)
          else if compressionType = 2 then .ok (tryParse (dwa .deflate rawData) fuel)
          else if compressionType = 3 then .ok (tryParse (.ok rawData) fuel)
          else .ok none

/-- The four stores at the end of `writeChunk`: the 4-byte big-endian
length, the compression-type byte 2, the compressed payload, and the
slot's timestamp-table word. -/
def writeRecord (s : Buf) (wo dataLength : Nat) (cd : List Nat) (x z now : Nat) :
    Except RErr Unit × Buf :=
  match dvSetBytes s wo (encU32 dataLength) with
  | .error e => (.error e, s)
  | .ok s1 =>
    match dvSetBytes s1 (wo + 4) [2] with
    | .error e => (.error e, s1)
    | .ok s2 =>
      match dvSetBytes s2 (wo + 5) cd with
      | .error e => (.error e, s2)
      | .ok s3 =>
        match dvSetBytes s3 (4096 + chunkIndex x z * 4) (encU32 now) with
        | .error e => (.error e, s3)
        | .ok s4 => (.ok (), s4)

/-- `writeChunk` (`compression.ts` lines 257-318): encode, compress,
in-place overwrite when the record still fits its old allocation,
otherwise append after the 4096-aligned end of the buffer, growing it
zero-filled and updating the location table via `setLocation` (whose two
overflow checks throw after the growth but before any table write). -/
def writeChunk (compress : List Nat → List Nat) (now : Nat)
    (s : Buf) (x z : Nat) (tag : Tag) : Except RErr Unit × Buf :=
  match tagIoWrite tag false with
  | .error e => (.error (.nbt e), s)
  | .ok nbtData =>
    let compressedData := compress nbtData
    let dataLength := compressedData.length + 1
    let totalPayloadSize := 4 + dataLength
    let sectorsNeeded := (totalPayloadSize + 4095) / 4096
    match getOffsetInfo s x z with
    | .error e => (.error e, s)
    | .ok info =>
      let oldOffset := info / 256
      let oldSectors := info % 256
      if 2 ≤ oldOffset ∧ sectorsNeeded ≤ oldSectors then
        writeRecord s (oldOffset * 4096) dataLength compressedData x z now
      else
        let endSector := (s.size + 4095) / 4096
        let writeOffset := endSector * 4096
        let newFileSize := writeOffset + sectorsNeeded * 4096
        let s1 := if newFileSize > s.size then expandBuffer s newFileSize else s
        if endSector > 0xFFFFFF then (.error .fileTooLarge, s1)
        else if sectorsNeeded > 0xFF then (.error .chunkTooLarge, s1)
        else
          match dvSetBytes s1 (chunkIndex x z * 4)
              (encU32 (endSector * 256 + sectorsNeeded)) with
          | .error e => (.error e, s1)
          | .ok s2 => writeRecord s2 writeOffset dataLength compressedData x z now

/-- Scan helper for `getPresentChunks` (row-major: `z` outer, `x`
inner). -/
def presentChunksAux (s : Buf) : List (Nat × Nat) → Except RErr (List (Nat × Nat))
  | [] => .ok []
  | (x, z) :: rest => do
    let h ← hasChunk s x z
    let tail ← presentChunksAux s rest
    .ok (if h then (x, z) :: tail else tail)

/-- `getPresentChunks`. -/
def getPresentChunks (s : Buf) : Except RErr (List (Nat × Nat)) :=
  presentChunksAux s
    (((List.range 32).map (fun z => (List.range 32).map (fun x => (x, z)))).flatten)

/-! ## Helper definitions used by the theorems -/

/-- Concatenation of entry lists (describes the map built by repeated
fresh-key `Map.set`s). -/
def entriesAppend : Entries → Entries → Entries
  | .nil, es => es
  | .cons k t tl, es => .cons k t (entriesAppend tl es)

/-- Every stored tag is named by its key (claim C10's invariant). -/
def namesMatchE : Entries → Bool
  | .nil => true
  | .cons k t es => (tagName t == some k) && namesMatchE es

/-- Every element's type id equals the (possibly signed) declared list
type (claim C7's homogeneity, stated over the decoder's `Int` ids). -/
def tagsAllTypeI (lt : Int) : Tags → Bool
  | .nil => true
  | .cons t ts => ((tagTypeId t : Int) == lt) && tagsAllTypeI lt ts

/-- The empty container of claim C1: an 8192-byte buffer with both
header tables all zero. -/
def regionEmpty : Buf := ⟨8192, fun _ => 0⟩

/-- A compound document covering every representative of claim C2:
empty String, empty List, empty Compound, zero-length arrays, and the
boundary scalars (Long = -1, Int = 2147483647), plus one of each
remaining kind. -/
def repDoc : Tag :=
  .tCompound (some []) (
    .cons [97] (.tString (some [97]) []) (
    .cons [98] (.tList (some [98]) 0 .nil) (
    .cons [99] (.tCompound (some [99]) .nil) (
    .cons [100] (.tByteArray (some [100]) []) (
    .cons [101] (.tIntArray (some [101]) []) (
    .cons [102] (.tLongArray (some [102]) []) (
    .cons [103] (.tLong (some [103]) (-1)) (
    .cons [104] (.tInt (some [104]) 2147483647) (
    .cons [105] (.tByte (some [105]) (-128)) (
    .cons [106] (.tShort (some [106]) 300) (
    .cons [107] (.tFloat (some [107]) 1065353216) (
    .cons [108] (.tDouble (some [108]) 4607182418800017408) (
    .cons [109] (.tString (some [109]) [104, 105]) .nil)))))))))))))

/-- `repDoc` with a null root name (payload-level round-trip input). -/
def repDocU : Tag := setName none repDoc

/-- The payload bytes `repDocU.writePayload` produces (spelled out so
that concrete evaluation does not re-run the writer at every byte). -/
def repDocUBytes : List Nat :=
  [8, 0, 1, 97, 0, 0, 9, 0, 1, 98, 0, 0, 0, 0, 0, 10, 0, 1, 99, 0, 7, 0, 1,
   100, 0, 0, 0, 0, 11, 0, 1, 101, 0, 0, 0, 0, 12, 0, 1, 102, 0, 0, 0, 0, 4,
   0, 1, 103, 255, 255, 255, 255, 255, 255, 255, 255, 3, 0, 1, 104, 127, 255,
   255, 255, 1, 0, 1, 105, 128, 2, 0, 1, 106, 1, 44, 5, 0, 1, 107, 63, 128, 0,
   0, 6, 0, 1, 108, 63, 240, 0, 0, 0, 0, 0, 0, 8, 0, 1, 109, 0, 2, 104, 105, 0]

/-- A small document for the concrete region witnesses. -/
def smallDoc : Tag :=
  .tCompound (some []) (.cons [104] (.tInt (some [104]) 7) .nil)

/-- An identity stand-in for the external compressor (witnesses only). -/
def idCompress : List Nat → List Nat := fun bs => bs

/-- An inverse stand-in for the external decompressor (witnesses only). -/
def idDwa : CFormat → List Nat → Except NErr (List Nat) := fun _ d => .ok d

/-- A compressor whose output needs 256 sectors, driving `setLocation`
into its `"Chunk too large"` branch (claim C4's counterexample). -/
def bigCompress : List Nat → List Nat := fun _ => List.replicate 1044476 0

/-- A container with a present-but-corrupt chunk at slot (0,0) — raw
(type 3) record whose payload `[7]` fails `TagIO.read` — and a valid raw
record at slot (1,0) (claim C5). -/
def corruptBuf : Buf :=
  ⟨16384, fun i =>
    if i = 2 then 2 else if i = 3 then 1
    else if i = 6 then 3 else if i = 7 then 1
    else if i = 8195 then 2 else if i = 8196 then 3 else if i = 8197 then 7
    else if i = 12291 then 5 else if i = 12292 then 3
    else if i = 12293 then 10 else 0⟩

/-! ## Lemmas: list cursor arithmetic -/

/-- `getD` through a known `drop` decomposition. -/
theorem getD_of_drop {l : List Nat} {p : Nat} {tl : List Nat}
    (h : l.drop p = tl) (i : Nat) : l.getD (p + i) 0 = tl.getD i 0 := by
  simp only [List.getD, ← h, List.get?_eq_getElem?, List.getElem?_drop]

/-- Length bound through a known `drop` decomposition. -/
theorem len_of_drop {l : List Nat} {p : Nat} {bs rest : List Nat}
    (hp : p ≤ l.length) (h : l.drop p = bs ++ rest) :
    p + bs.length ≤ l.length := by
  have := congrArg List.length h
  simp only [List.length_drop, List.length_append] at this
  omega

/-- The `drop` decomposition after consuming `bs`. -/
theorem drop_of_drop {l : List Nat} {p : Nat} {bs rest : List Nat}
    (h : l.drop p = bs ++ rest) : l.drop (p + bs.length) = rest := by
  have : l.drop (p + bs.length) = (l.drop p).drop bs.length := by
    rw [List.drop_drop, Nat.add_comm]
  rw [this, h, List.drop_left]

theorem rdU8_spec {l : List Nat} {p b : Nat} {rest : List Nat}
    (hp : p ≤ l.length) (h : l.drop p = b :: rest) :
    rdU8 ⟨l, p⟩ = .ok (b, ⟨l, p + 1⟩) := by
  have hl := @len_of_drop l p [b] rest hp (by simpa using h)
  have hb := getD_of_drop h 0
  simp only [List.getD_cons_zero, Nat.add_zero] at hb
  simp only [rdU8]
  rw [if_neg (by simp at hl ⊢; omega), hb]

theorem rdI8_spec {l : List Nat} {p b : Nat} {rest : List Nat}
    (hp : p ≤ l.length) (h : l.drop p = b :: rest) :
    rdI8 ⟨l, p⟩ = .ok (toI8 b, ⟨l, p + 1⟩) := by
  simp [rdI8, rdU8_spec hp h, Except.map]

theorem rdU16_spec {l : List Nat} {p b0 b1 : Nat} {rest : List Nat}
    (hp : p ≤ l.length) (h : l.drop p = b0 :: b1 :: rest) :
    rdU16 ⟨l, p⟩ = .ok (b0 * 256 + b1, ⟨l, p + 2⟩) := by
  have hl := @len_of_drop l p [b0, b1] rest hp (by simpa using h)
  have g0 := getD_of_drop h 0
  have g1 := getD_of_drop h 1
  simp only [List.getD_cons_zero, List.getD_cons_succ, Nat.add_zero] at g0 g1
  simp only [rdU16]
  rw [if_neg (by simp at hl ⊢; omega), g0, g1]

theorem rdU32_spec {l : List Nat} {p b0 b1 b2 b3 : Nat} {rest : List Nat}
    (hp : p ≤ l.length) (h : l.drop p = b0 :: b1 :: b2 :: b3 :: rest) :
    rdU32 ⟨l, p⟩ =
      .ok (b0 * 16777216 + b1 * 65536 + b2 * 256 + b3, ⟨l, p + 4⟩) := by
  have hl := @len_of_drop l p [b0, b1, b2, b3] rest hp (by simpa using h)
  have g0 := getD_of_drop h 0
  have g1 := getD_of_drop h 1
  have g2 := getD_of_drop h 2
  have g3 := getD_of_drop h 3
  simp only [List.getD_cons_zero, List.getD_cons_succ, Nat.add_zero] at g0 g1 g2 g3
  simp only [rdU32]
  rw [if_neg (by simp at hl ⊢; omega), g0, g1, g2, g3]

theorem rdU64_spec {l : List Nat} {p b0 b1 b2 b3 b4 b5 b6 b7 : Nat}
    {rest : List Nat} (hp : p ≤ l.length)
    (h : l.drop p = b0 :: b1 :: b2 :: b3 :: b4 :: b5 :: b6 :: b7 :: rest) :
    rdU64 ⟨l, p⟩ =
      .ok (b0 * 72057594037927936 + b1 * 281474976710656 + b2 * 1099511627776 +
        b3 * 4294967296 + b4 * 16777216 + b5 * 65536 + b6 * 256 + b7,
        ⟨l, p + 8⟩) := by
  have hl := @len_of_drop l p [b0, b1, b2, b3, b4, b5, b6, b7] rest hp (by simpa using h)
  have g0 := getD_of_drop h 0
  have g1 := getD_of_drop h 1
  have g2 := getD_of_drop h 2
  have g3 := getD_of_drop h 3
  have g4 := getD_of_drop h 4
  have g5 := getD_of_drop h 5
  have g6 := getD_of_drop h 6
  have g7 := getD_of_drop h 7
  simp only [List.getD_cons_zero, List.getD_cons_succ, Nat.add_zero]
    at g0 g1 g2 g3 g4 g5 g6 g7
  simp only [rdU64]
  rw [if_neg (by simp at hl ⊢; omega), g0, g1, g2, g3, g4, g5, g6, g7]

theorem rdBytesN_spec {l : List Nat} {p : Nat} {bs rest : List Nat}
    (hp : p ≤ l.length) (h : l.drop p = bs ++ rest) :
    rdBytesN bs.length ⟨l, p⟩ = .ok (bs, ⟨l, p + bs.length⟩) := by
  have hl := len_of_drop hp h
  simp only [rdBytesN]
  rw [if_neg (by omega), h]
  simp

/-! ## Lemmas: signed/unsigned encoding round trips -/

theorem toI8_emod {v : Int} (h1 : -128 ≤ v) (h2 : v < 128) :
    toI8 ((v % 256).toNat) = v := by
  unfold toI8; split <;> omega

theorem toI16_emod {v : Int} (h1 : -32768 ≤ v) (h2 : v < 32768) :
    toI16 ((v % 65536).toNat) = v := by
  unfold toI16; split <;> omega

theorem toI32_emod {v : Int} (h1 : -2147483648 ≤ v) (h2 : v < 2147483648) :
    toI32 ((v % 4294967296).toNat) = v := by
  unfold toI32; split <;> omega

theorem toI64_emod {v : Int} (h1 : -9223372036854775808 ≤ v)
    (h2 : v < 9223372036854775808) :
    toI64 ((v % 18446744073709551616).toNat) = v := by
  unfold toI64; split <;> omega

theorem toI32_small {u : Nat} (h : u < 2147483648) : toI32 u = u := by
  unfold toI32; split <;> omega

theorem rdU16_enc {l : List Nat} {p u : Nat} {rest : List Nat}
    (hu : u < 65536) (hp : p ≤ l.length) (h : l.drop p = encU16 u ++ rest) :
    rdU16 ⟨l, p⟩ = .ok (u, ⟨l, p + 2⟩) := by
  have := @rdU16_spec l p (u / 256 % 256) (u % 256) rest hp (by simpa [encU16] using h)
  rw [this]
  congr 2
  omega

theorem rdU32_enc {l : List Nat} {p u : Nat} {rest : List Nat}
    (hu : u < 4294967296) (hp : p ≤ l.length) (h : l.drop p = encU32 u ++ rest) :
    rdU32 ⟨l, p⟩ = .ok (u, ⟨l, p + 4⟩) := by
  have := @rdU32_spec l p (u / 16777216 % 256) (u / 65536 % 256)
    (u / 256 % 256) (u % 256) rest hp (by simpa [encU32] using h)
  rw [this]
  congr 2
  omega

theorem rdU64_enc {l : List Nat} {p u : Nat} {rest : List Nat}
    (hu : u < 18446744073709551616) (hp : p ≤ l.length)
    (h : l.drop p = encU64 u ++ rest) :
    rdU64 ⟨l, p⟩ = .ok (u, ⟨l, p + 8⟩) := by
  have := @rdU64_spec l p (u / 72057594037927936 % 256)
    (u / 281474976710656 % 256) (u / 1099511627776 % 256)
    (u / 4294967296 % 256) (u / 16777216 % 256)
    (u / 65536 % 256) (u / 256 % 256) (u % 256) rest hp
    (by simpa [encU64] using h)
  rw [this]
  congr 2
  omega

theorem wBytes_eq_self {bs : List Nat} (h : bs.all (· < 256) = true) :
    wBytes bs = bs := by
  unfold wBytes
  induction bs with
  | nil => rfl
  | cons b t ih =>
    simp only [List.all_cons, Bool.and_eq_true, decide_eq_true_eq] at h
    simp only [List.map_cons]
    rw [Nat.mod_eq_of_lt h.1, ih h.2]

/-! ## Lemmas: signed reads over writer output -/

theorem rdI8_wByte {l : List Nat} {p : Nat} {v : Int} {rest : List Nat}
    (hv1 : -128 ≤ v) (hv2 : v < 128) (hp : p ≤ l.length)
    (h : l.drop p = wByte v ++ rest) :
    rdI8 ⟨l, p⟩ = .ok (v, ⟨l, p + 1⟩) := by
  have := rdI8_spec hp (b := (v % 256).toNat) (by simpa [wByte] using h)
  rw [this, toI8_emod hv1 hv2]

theorem rdI16_wShort {l : List Nat} {p : Nat} {v : Int} {rest : List Nat}
    (hv1 : -32768 ≤ v) (hv2 : v < 32768) (hp : p ≤ l.length)
    (h : l.drop p = wShort v ++ rest) :
    rdI16 ⟨l, p⟩ = .ok (v, ⟨l, p + 2⟩) := by
  have hlt : (v % 65536).toNat < 65536 := by omega
  have := rdU16_enc hlt hp (by simpa [wShort] using h)
  simp [rdI16, this, Except.map, toI16_emod hv1 hv2]

theorem rdI32_wInt {l : List Nat} {p : Nat} {v : Int} {rest : List Nat}
    (hv1 : -2147483648 ≤ v) (hv2 : v < 2147483648) (hp : p ≤ l.length)
    (h : l.drop p = wInt v ++ rest) :
    rdI32 ⟨l, p⟩ = .ok (v, ⟨l, p + 4⟩) := by
  have hlt : (v % 4294967296).toNat < 4294967296 := by omega
  have := rdU32_enc hlt hp (by simpa [wInt] using h)
  simp [rdI32, this, Except.map, toI32_emod hv1 hv2]

theorem rdI64_wLong {l : List Nat} {p : Nat} {v : Int} {rest : List Nat}
    (hv1 : -9223372036854775808 ≤ v) (hv2 : v < 9223372036854775808)
    (hp : p ≤ l.length) (h : l.drop p = wLong v ++ rest) :
    rdI64 ⟨l, p⟩ = .ok (v, ⟨l, p + 8⟩) := by
  have hlt : (v % 18446744073709551616).toNat < 18446744073709551616 := by omega
  have := rdU64_enc hlt hp (by simpa [wLong] using h)
  simp [rdI64, this, Except.map, toI64_emod hv1 hv2]

/-! ## Lemmas: tag accessors -/

theorem tagName_setName (nm : Option (List Nat)) (t : Tag) :
    tagName (setName nm t) = nm := by
  cases t <;> rfl

theorem tagTypeId_setName (nm : Option (List Nat)) (t : Tag) :
    tagTypeId (setName nm t) = tagTypeId t := by
  cases t <;> rfl

theorem setName_setName (a b : Option (List Nat)) (t : Tag) :
    setName a (setName b t) = setName a t := by
  cases t <;> rfl

theorem setName_of_name {nm : Option (List Nat)} {t : Tag}
    (h : tagName t = nm) : setName nm t = t := by
  cases t <;> (simp only [tagName] at h; simp [setName, h])

theorem tagTypeId_lt (t : Tag) : tagTypeId t < 13 := by
  cases t <;> simp [tagTypeId]

/-! ## Lemmas: entry maps -/

theorem entriesAppend_nilL (es : Entries) : entriesAppend .nil es = es := rfl

theorem entriesAppend_nilR : ∀ (es : Entries), entriesAppend es .nil = es
  | .nil => rfl
  | .cons _ _ tl => by simp [entriesAppend, entriesAppend_nilR tl]

theorem entriesAppend_assoc : ∀ (a : Entries) (b c : Entries),
    entriesAppend (entriesAppend a b) c = entriesAppend a (entriesAppend b c)
  | .nil, _, _ => rfl
  | .cons _ _ tl, b, c => by simp [entriesAppend, entriesAppend_assoc tl b c]

theorem entryKeys_entriesAppend : ∀ (a b : Entries),
    entryKeys (entriesAppend a b) = entryKeys a ++ entryKeys b
  | .nil, _ => rfl
  | .cons _ _ tl, b => by
    simp [entriesAppend, entryKeys, entryKeys_entriesAppend tl b]

theorem mapSet_fresh : ∀ {acc : Entries} {k : List Nat} {t : Tag},
    k ∉ entryKeys acc → mapSet k t acc = entriesAppend acc (.cons k t .nil)
  | .nil, _, _, _ => rfl
  | .cons k' t' tl, k, t, h => by
    simp only [entryKeys, List.mem_cons, not_or] at h
    simp [mapSet, entriesAppend, Ne.symm h.1, mapSet_fresh h.2]

/-! ## Lemmas: array payload loops -/

theorem emod256_toNat_lt (b : Int) : ((b % 256).toNat) < 256 := by omega

theorem readI32s_spec : ∀ (v : List Int) (l : List Nat) (p : Nat) (rest : List Nat),
    v.all (fun x => decide (-2147483648 ≤ x) && decide (x < 2147483648)) = true →
    p ≤ l.length → l.drop p = (v.map wInt).flatten ++ rest →
    readI32s v.length ⟨l, p⟩ = .ok (v, ⟨l, p + 4 * v.length⟩) := by
  intro v
  induction v with
  | nil => intro l p rest _ _ _; simp [readI32s]
  | cons x xs ih =>
    intro l p rest hwf hp h
    simp only [List.all_cons, Bool.and_eq_true, decide_eq_true_eq] at hwf
    simp only [List.map_cons, List.flatten_cons, List.append_assoc] at h
    have hx := rdI32_wInt hwf.1.1 hwf.1.2 hp h
    have hlen : (wInt x).length = 4 := by simp [wInt, encU32]
    have h4 : l.drop (p + 4) = (xs.map wInt).flatten ++ rest := by
      have := drop_of_drop h
      rwa [hlen] at this
    have hp4 : p + 4 ≤ l.length := by
      have := len_of_drop hp h
      omega
    have hxs := ih l (p + 4) rest (by simpa using hwf.2) hp4 h4
    simp only [readI32s, List.length_cons, hx, Except.bind, bind, hxs]
    have : p + 4 + 4 * xs.length = p + 4 * (xs.length + 1) := by ring
    rw [this]

theorem readI64s_spec : ∀ (v : List Int) (l : List Nat) (p : Nat) (rest : List Nat),
    v.all (fun x =>
      decide (-9223372036854775808 ≤ x) && decide (x < 9223372036854775808)) = true →
    p ≤ l.length → l.drop p = (v.map wLong).flatten ++ rest →
    readI64s v.length ⟨l, p⟩ = .ok (v, ⟨l, p + 8 * v.length⟩) := by
  intro v
  induction v with
  | nil => intro l p rest _ _ _; simp [readI64s]
  | cons x xs ih =>
    intro l p rest hwf hp h
    simp only [List.all_cons, Bool.and_eq_true, decide_eq_true_eq] at hwf
    simp only [List.map_cons, List.flatten_cons, List.append_assoc] at h
    have hx := rdI64_wLong hwf.1.1 hwf.1.2 hp h
    have hlen : (wLong x).length = 8 := by simp [wLong, encU64]
    have h8 : l.drop (p + 8) = (xs.map wLong).flatten ++ rest := by
      have := drop_of_drop h
      rwa [hlen] at this
    have hp8 : p + 8 ≤ l.length := by
      have := len_of_drop hp h
      omega
    have hxs := ih l (p + 8) rest (by simpa using hwf.2) hp8 h8
    simp only [readI64s, List.length_cons, hx, Except.bind, bind, hxs]
    have : p + 8 + 8 * xs.length = p + 8 * (xs.length + 1) := by ring
    rw [this]

theorem rdBytesI_ofNat (n : Nat) (r : Rd) : rdBytesI (n : Int) r = rdBytesN n r := by
  unfold rdBytesI rdBytesN
  by_cases hc : r.pos + n > r.buf.length
  · rw [if_pos (by omega), if_pos hc]
  · rw [if_neg (by omega), if_neg hc]
    have h1 : ((n : Int)).toNat = n := by omega
    have h2 : ((r.pos : Int) + (n : Int)).toNat = r.pos + n := by omega
    rw [h1, h2]

theorem byteArray_enc_lt (v : List Int) :
    (v.map (fun b => ((b % 256 : Int)).toNat)).all (· < 256) = true := by
  induction v with
  | nil => rfl
  | cons b t ih => simp_all [emod256_toNat_lt b]

theorem byteArray_enc_rt {v : List Int}
    (hwf : v.all (fun b => decide (-128 ≤ b) && decide (b < 128)) = true) :
    (v.map (fun b => ((b % 256 : Int)).toNat)).map toI8 = v := by
  induction v with
  | nil => rfl
  | cons b t ih =>
    simp only [List.all_cons, Bool.and_eq_true, decide_eq_true_eq] at hwf
    simp only [List.map_cons]
    rw [toI8_emod hwf.1.1 hwf.1.2, ih hwf.2]

theorem tagFuel_pos (t : Tag) : 1 ≤ tagFuel t := by
  cases t <;> simp [tagFuel]

theorem wfTag_name {t : Tag} (h : wfTag t = true) : wfName (tagName t) = true := by
  cases t <;>
    (rw [wfTag.eq_def] at h
     first
       | (simp only [tagName]; exact h)
       | (simp only [Bool.and_eq_true] at h
          simp only [tagName]
          first
            | exact h.1
            | exact h.1.1))

theorem flatten_wInt_length (v : List Int) :
    ((v.map wInt).flatten).length = 4 * v.length := by
  induction v with
  | nil => rfl
  | cons x xs ih => simp [wInt, encU32, ih]; ring

theorem flatten_wLong_length (v : List Int) :
    ((v.map wLong).flatten).length = 8 * v.length := by
  induction v with
  | nil => rfl
  | cons x xs ih => simp [wLong, encU64, ih]; ring

/-! ## Lemmas: decoder unfolding equations -/

theorem readPayload_zero (tid : Int) (r : Rd) :
    readPayload 0 tid r = .error .outOfFuel := rfl

theorem rp_succ_0 (f : Nat) (r : Rd) :
    readPayload (f + 1) 0 r = .ok (.tEnd none, r) := rfl

theorem rp_succ_1 (f : Nat) (r : Rd) :
    readPayload (f + 1) 1 r =
      (rdI8 r).map (fun p => (.tByte none p.1, p.2)) := rfl

theorem rp_succ_2 (f : Nat) (r : Rd) :
    readPayload (f + 1) 2 r =
      (rdI16 r).map (fun p => (.tShort none p.1, p.2)) := rfl

theorem rp_succ_3 (f : Nat) (r : Rd) :
    readPayload (f + 1) 3 r =
      (rdI32 r).map (fun p => (.tInt none p.1, p.2)) := rfl

theorem rp_succ_4 (f : Nat) (r : Rd) :
    readPayload (f + 1) 4 r =
      (rdI64 r).map (fun p => (.tLong none p.1, p.2)) := rfl

theorem rp_succ_5 (f : Nat) (r : Rd) :
    readPayload (f + 1) 5 r =
      (rdU32 r).map (fun p => (.tFloat none p.1, p.2)) := rfl

theorem rp_succ_6 (f : Nat) (r : Rd) :
    readPayload (f + 1) 6 r =
      (rdU64 r).map (fun p => (.tDouble none p.1, p.2)) := rfl

theorem rp_succ_7 (f : Nat) (r : Rd) :
    readPayload (f + 1) 7 r = (do
      let (len, r) ← rdI32 r
      let (bs, r) ← rdBytesI len r
      .ok (.tByteArray none (bs.map toI8), r)) := rfl

theorem rp_succ_8 (f : Nat) (r : Rd) :
    readPayload (f + 1) 8 r = (do
      let (len, r) ← rdU16 r
      let (bs, r) ← rdBytesN len r
      .ok (.tString none bs, r)) := rfl

theorem rp_succ_9 (f : Nat) (r : Rd) :
    readPayload (f + 1) 9 r = (do
      let (lt, r) ← rdI8 r
      let (count, r) ← rdI32 r
      if count ≤ 0 then .ok (.tList none lt .nil, r)
      else do
        let (es, r) ← readElems f lt count.toNat r
        .ok (.tList none lt es, r)) := rfl

theorem rp_succ_10 (f : Nat) (r : Rd) :
    readPayload (f + 1) 10 r = (do
      let (es, r) ← readEntries f .nil r
      .ok (.tCompound none es, r)) := rfl

theorem rp_succ_11 (f : Nat) (r : Rd) :
    readPayload (f + 1) 11 r = (do
      let (len, r) ← rdI32 r
      if len < 0 then .error (.negArrayLength len)
      else do
        let (vs, r) ← readI32s len.toNat r
        .ok (.tIntArray none vs, r)) := rfl

theorem rp_succ_12 (f : Nat) (r : Rd) :
    readPayload (f + 1) 12 r = (do
      let (len, r) ← rdI32 r
      if len < 0 then .error (.negArrayLength len)
      else do
        let (vs, r) ← readI64s len.toNat r
        .ok (.tLongArray none vs, r)) := rfl

theorem readElems_0 (fuel : Nat) (lt : Int) (r : Rd) :
    readElems fuel lt 0 r = .ok (.nil, r) := by
  cases fuel <;> rfl

theorem readElems_succ (f : Nat) (lt : Int) (n : Nat) (r : Rd) :
    readElems (f + 1) lt (n + 1) r = (do
      let (t, r) ← readPayload f lt r
      let (ts, r) ← readElems f lt n r
      .ok (.cons t ts, r)) := rfl

theorem readEntries_zero (acc : Entries) (r : Rd) :
    readEntries 0 acc r = (do
      let (tid, r) ← rdI8 r
      if tid = 0 then .ok (acc, r) else .error .outOfFuel) := rfl

theorem readEntries_succ (f : Nat) (acc : Entries) (r : Rd) :
    readEntries (f + 1) acc r = (do
      let (tid, r) ← rdI8 r
      if tid = 0 then .ok (acc, r)
      else do
        let (nameLen, r) ← rdU16 r
        let (nameBytes, r) ← rdBytesN nameLen r
        let (t, r) ← readPayload f tid r
        readEntries f (mapSet nameBytes (setName (some nameBytes) t) acc) r) := rfl

/-! ## The encode/decode round trip -/

mutual
theorem writePayload_rt (t : Tag) (bs : List Nat) (fuel : Nat) (l : List Nat)
    (p : Nat) (rest : List Nat) (hwf : wfTag t = true)
    (hw : writePayload t = .ok bs) (hf : tagFuel t ≤ fuel)
    (hp : p ≤ l.length) (h : l.drop p = bs ++ rest) :
    readPayload fuel (tagTypeId t : Int) ⟨l, p⟩ =
      .ok (setName none t, ⟨l, p + bs.length⟩) := by
  cases t with
  | tEnd n =>
    simp only [writePayload, Except.ok.injEq] at hw
    subst hw
    obtain ⟨f, rfl⟩ : ∃ f, fuel = f + 1 := ⟨fuel - 1, by simp [tagFuel] at hf; omega⟩
    simp [tagTypeId, rp_succ_0, setName]
  | tByte n v =>
    simp only [writePayload, Except.ok.injEq] at hw
    subst hw
    rw [wfTag.eq_def] at hwf
    simp only [Bool.and_eq_true, decide_eq_true_eq] at hwf
    obtain ⟨f, rfl⟩ : ∃ f, fuel = f + 1 := ⟨fuel - 1, by simp [tagFuel] at hf; omega⟩
    rw [tagTypeId]
    push_cast
    rw [rp_succ_1, rdI8_wByte hwf.1.2 hwf.2 hp h]
    simp [Except.map, setName, wByte]
  | tShort n v =>
    simp only [writePayload, Except.ok.injEq] at hw
    subst hw
    rw [wfTag.eq_def] at hwf
    simp only [Bool.and_eq_true, decide_eq_true_eq] at hwf
    obtain ⟨f, rfl⟩ : ∃ f, fuel = f + 1 := ⟨fuel - 1, by simp [tagFuel] at hf; omega⟩
    rw [tagTypeId]
    push_cast
    rw [rp_succ_2, rdI16_wShort hwf.1.2 hwf.2 hp h]
    simp [Except.map, setName, wShort, encU16]
  | tInt n v =>
    simp only [writePayload, Except.ok.injEq] at hw
    subst hw
    rw [wfTag.eq_def] at hwf
    simp only [Bool.and_eq_true, decide_eq_true_eq] at hwf
    obtain ⟨f, rfl⟩ : ∃ f, fuel = f + 1 := ⟨fuel - 1, by simp [tagFuel] at hf; omega⟩
    rw [tagTypeId]
    push_cast
    rw [rp_succ_3, rdI32_wInt hwf.1.2 hwf.2 hp h]
    simp [Except.map, setName, wInt, encU32]
  | tLong n v =>
    simp only [writePayload, Except.ok.injEq] at hw
    subst hw
    rw [wfTag.eq_def] at hwf
    simp only [Bool.and_eq_true, decide_eq_true_eq] at hwf
    obtain ⟨f, rfl⟩ : ∃ f, fuel = f + 1 := ⟨fuel - 1, by simp [tagFuel] at hf; omega⟩
    rw [tagTypeId]
    push_cast
    rw [rp_succ_4, rdI64_wLong hwf.1.2 hwf.2 hp h]
    simp [Except.map, setName, wLong, encU64]
  | tFloat n bits =>
    simp only [writePayload, Except.ok.injEq] at hw
    subst hw
    rw [wfTag.eq_def] at hwf
    simp only [Bool.and_eq_true, decide_eq_true_eq] at hwf
    obtain ⟨f, rfl⟩ : ∃ f, fuel = f + 1 := ⟨fuel - 1, by simp [tagFuel] at hf; omega⟩
    rw [tagTypeId]
    push_cast
    rw [rp_succ_5, rdU32_enc hwf.2 hp h]
    simp [Except.map, setName, encU32]
  | tDouble n bits =>
    simp only [writePayload, Except.ok.injEq] at hw
    subst hw
    rw [wfTag.eq_def] at hwf
    simp only [Bool.and_eq_true, decide_eq_true_eq] at hwf
    obtain ⟨f, rfl⟩ : ∃ f, fuel = f + 1 := ⟨fuel - 1, by simp [tagFuel] at hf; omega⟩
    rw [tagTypeId]
    push_cast
    rw [rp_succ_6, rdU64_enc hwf.2 hp h]
    simp [Except.map, setName, encU64]
  | tByteArray n v =>
    simp only [writePayload, Except.ok.injEq] at hw
    subst hw
    rw [wfTag.eq_def] at hwf
    simp only [Bool.and_eq_true, decide_eq_true_eq] at hwf
    obtain ⟨f, rfl⟩ : ∃ f, fuel = f + 1 := ⟨fuel - 1, by simp [tagFuel] at hf; omega⟩
    rw [tagTypeId]
    push_cast
    rw [rp_succ_7]
    rw [List.append_assoc] at h
    have hl1 : (-2147483648 : Int) ≤ ((v.length : Nat) : Int) := by omega
    have hl2 : ((v.length : Nat) : Int) < 2147483648 := by exact_mod_cast hwf.1.2
    rw [rdI32_wInt hl1 hl2 hp h]
    simp only [Except.bind, bind, rdBytesI_ofNat, Int.toNat_natCast]
    have h4 : l.drop (p + 4) =
        wBytes (v.map (fun b => ((b % 256 : Int)).toNat)) ++ rest := by
      have := drop_of_drop h
      simpa [wInt, encU32] using this
    have hp4 : p + 4 ≤ l.length := by
      have := len_of_drop hp h
      simp [wInt, encU32] at this
      omega
    have hc : (wBytes (v.map (fun b => ((b % 256 : Int)).toNat))).length = v.length := by
      simp [wBytes]
    have hrb := rdBytesN_spec hp4 h4
    rw [hc] at hrb
    rw [hrb]
    simp [wBytes_eq_self (byteArray_enc_lt v), byteArray_enc_rt hwf.2, setName,
      wInt, encU32, hc]
    omega
  | tString n v =>
    simp only [writePayload, Except.ok.injEq] at hw
    subst hw
    rw [wfTag.eq_def] at hwf
    simp only [Bool.and_eq_true, decide_eq_true_eq] at hwf
    obtain ⟨f, rfl⟩ : ∃ f, fuel = f + 1 := ⟨fuel - 1, by simp [tagFuel] at hf; omega⟩
    rw [tagTypeId]
    push_cast
    rw [rp_succ_8]
    rw [List.append_assoc] at h
    have hu : wUShort v.length = encU16 v.length := by
      simp [wUShort, Nat.mod_eq_of_lt hwf.1.2]
    rw [hu] at h
    rw [rdU16_enc hwf.1.2 hp h]
    simp only [Except.bind, bind]
    have h2 : l.drop (p + 2) = wBytes v ++ rest := by
      have := drop_of_drop h
      simpa [encU16] using this
    have hp2 : p + 2 ≤ l.length := by
      have := len_of_drop hp h
      simp [encU16] at this
      omega
    have hc : (wBytes v).length = v.length := by simp [wBytes]
    have hrb := rdBytesN_spec hp2 h2
    rw [hc] at hrb
    rw [hrb]
    simp [wBytes_eq_self hwf.2, setName, hu, encU16]
    omega
  | tList n lt es =>
    cases es with
    | nil =>
      simp only [writePayload, Except.ok.injEq] at hw
      subst hw
      rw [wfTag.eq_def] at hwf
      simp only [Bool.and_eq_true, decide_eq_true_eq] at hwf
      obtain ⟨f, rfl⟩ : ∃ f, fuel = f + 1 :=
        ⟨fuel - 1, by have := tagFuel_pos (.tList n lt .nil); omega⟩
      rw [tagTypeId]
      push_cast
      rw [rp_succ_9]
      rw [List.append_assoc] at h
      rw [rdI8_wByte hwf.2.1 hwf.2.2 hp h]
      simp only [Except.bind, bind]
      have h1 : l.drop (p + 1) = wInt 0 ++ rest := by
        have := drop_of_drop h
        simpa [wByte] using this
      have hp1 : p + 1 ≤ l.length := by
        have := len_of_drop hp h
        simp [wByte] at this
        omega
      rw [rdI32_wInt (by norm_num) (by norm_num) hp1 h1]
      simp [setName, wByte, wInt, encU32]
    | cons h1 t1 =>
      simp only [writePayload] at hw
      rw [wfTag.eq_def] at hwf
      simp only [Bool.and_eq_true, decide_eq_true_eq] at hwf
      obtain ⟨f, rfl⟩ : ∃ f, fuel = f + 1 :=
        ⟨fuel - 1, by have := tagFuel_pos (.tList n lt (.cons h1 t1)); omega⟩
      rw [tagTypeId]
      push_cast
      rw [rp_succ_9]
      have hlt := hwf.2.1.1.1
      have hall := hwf.2.1.1.2
      have hlen := hwf.2.1.2
      have hwfe := hwf.2.2
      simp only [hall, if_true] at hw
      cases hwt : writeTags (.cons h1 t1) with
      | error e => rw [hwt] at hw; simp [Except.map] at hw
      | ok bsT =>
        rw [hwt] at hw
        simp only [Except.map, Except.ok.injEq] at hw
        subst hw
        rw [List.append_assoc, List.append_assoc] at h
        have hid1 : (-128 : Int) ≤ ((tagTypeId h1 : Nat) : Int) := by omega
        have hid2 : ((tagTypeId h1 : Nat) : Int) < 128 := by
          have := tagTypeId_lt h1
          omega
        rw [rdI8_wByte hid1 hid2 hp h]
        simp only [Except.bind, bind]
        have hb1 : l.drop (p + 1) =
            wInt ((tagsLength (.cons h1 t1) : Nat) : Int) ++ (bsT ++ rest) := by
          have := drop_of_drop h
          simpa [wByte] using this
        have hp1 : p + 1 ≤ l.length := by
          have := len_of_drop hp h
          simp [wByte] at this
          omega
        have hc1 : (-2147483648 : Int) ≤ ((tagsLength (.cons h1 t1) : Nat) : Int) := by
          omega
        have hc2 : ((tagsLength (.cons h1 t1) : Nat) : Int) < 2147483648 := by
          exact_mod_cast hlen
        rw [rdI32_wInt hc1 hc2 hp1 hb1]
        have hpos : ¬ ((tagsLength (.cons h1 t1) : Nat) : Int) ≤ 0 := by
          rw [tagsLength]
          push_cast
          omega
        simp only [Except.bind, bind, if_neg hpos, Int.toNat_natCast]
        have hb5 : l.drop (p + 1 + 4) = bsT ++ rest := by
          have := drop_of_drop hb1
          simpa [wInt, encU32] using this
        have hp5 : p + 1 + 4 ≤ l.length := by
          have := len_of_drop hp1 hb1
          simp [wInt, encU32] at this
          omega
        have hfe : elemsFuel (.cons h1 t1) ≤ f := by
          rw [tagFuel] at hf
          omega
        rw [writeTags_rt (.cons h1 t1) (tagTypeId h1) bsT f l (p + 1 + 4)
          rest hwfe hall hwt hfe hp5 hb5]
        simp [setName, hlt, wByte, wInt, encU32]
        omega
  | tCompound n es =>
    simp only [writePayload] at hw
    rw [wfTag.eq_def] at hwf
    simp only [Bool.and_eq_true, decide_eq_true_eq] at hwf
    obtain ⟨f, rfl⟩ : ∃ f, fuel = f + 1 :=
      ⟨fuel - 1, by have := tagFuel_pos (.tCompound n es); omega⟩
    rw [tagTypeId]
    push_cast
    rw [rp_succ_10]
    cases hwe : writeEntries es with
    | error e => rw [hwe] at hw; simp [Except.map] at hw
    | ok bsE =>
      rw [hwe] at hw
      simp only [Except.map, Except.ok.injEq] at hw
      subst hw
      have hzero : wByte 0 = [0] := by simp [wByte]
      rw [hzero, List.append_assoc] at h
      have h' : l.drop p = bsE ++ 0 :: rest := by simpa using h
      have hfe : entriesFuel es ≤ f := by
        rw [tagFuel] at hf
        omega
      rw [writeEntries_rt es .nil bsE f l p rest hwf.1.2 hwf.2
        (by intro k hk; simp [entryKeys]) hwe hfe hp h']
      simp [Except.bind, bind, entriesAppend_nilL, setName, hzero]
      omega
  | tIntArray n v =>
    simp only [writePayload, Except.ok.injEq] at hw
    subst hw
    rw [wfTag.eq_def] at hwf
    simp only [Bool.and_eq_true, decide_eq_true_eq] at hwf
    obtain ⟨f, rfl⟩ : ∃ f, fuel = f + 1 := ⟨fuel - 1, by simp [tagFuel] at hf; omega⟩
    rw [tagTypeId]
    push_cast
    rw [rp_succ_11]
    rw [List.append_assoc] at h
    have hl1 : (-2147483648 : Int) ≤ ((v.length : Nat) : Int) := by omega
    have hl2 : ((v.length : Nat) : Int) < 2147483648 := by exact_mod_cast hwf.1.2
    rw [rdI32_wInt hl1 hl2 hp h]
    simp only [Except.bind, bind]
    rw [if_neg (by omega : ¬ ((v.length : Nat) : Int) < 0)]
    simp only [Int.toNat_natCast]
    have h4 : l.drop (p + 4) = (v.map wInt).flatten ++ rest := by
      have := drop_of_drop h
      simpa [wInt, encU32] using this
    have hp4 : p + 4 ≤ l.length := by
      have := len_of_drop hp h
      simp [wInt, encU32] at this
      omega
    rw [readI32s_spec v l (p + 4) rest hwf.2 hp4 h4]
    have hlen4 : (wInt ((v.length : Nat) : Int) ++ (v.map wInt).flatten).length =
        4 + 4 * v.length := by
      rw [List.length_append, flatten_wInt_length]
      simp [wInt, encU32]
    rw [hlen4]
    simp [setName]
    omega
  | tLongArray n v =>
    simp only [writePayload, Except.ok.injEq] at hw
    subst hw
    rw [wfTag.eq_def] at hwf
    simp only [Bool.and_eq_true, decide_eq_true_eq] at hwf
    obtain ⟨f, rfl⟩ : ∃ f, fuel = f + 1 := ⟨fuel - 1, by simp [tagFuel] at hf; omega⟩
    rw [tagTypeId]
    push_cast
    rw [rp_succ_12]
    rw [List.append_assoc] at h
    have hl1 : (-2147483648 : Int) ≤ ((v.length : Nat) : Int) := by omega
    have hl2 : ((v.length : Nat) : Int) < 2147483648 := by exact_mod_cast hwf.1.2
    rw [rdI32_wInt hl1 hl2 hp h]
    simp only [Except.bind, bind]
    rw [if_neg (by omega : ¬ ((v.length : Nat) : Int) < 0)]
    simp only [Int.toNat_natCast]
    have h4 : l.drop (p + 4) = (v.map wLong).flatten ++ rest := by
      have := drop_of_drop h
      simpa [wInt, encU32] using this
    have hp4 : p + 4 ≤ l.length := by
      have := len_of_drop hp h
      simp [wInt, encU32] at this
      omega
    rw [readI64s_spec v l (p + 4) rest hwf.2 hp4 h4]
    have hlen8 : (wInt ((v.length : Nat) : Int) ++ (v.map wLong).flatten).length =
        4 + 8 * v.length := by
      rw [List.length_append, flatten_wLong_length]
      simp [wInt, encU32]
    rw [hlen8]
    simp [setName]
    omega
theorem writeTags_rt (ts : Tags) (ty : Nat) (bs : List Nat) (fuel : Nat)
    (l : List Nat) (p : Nat) (rest : List Nat) (hwf : wfElems ts = true)
    (hty : tagsAllType ty ts = true) (hw : writeTags ts = .ok bs)
    (hf : elemsFuel ts ≤ fuel) (hp : p ≤ l.length) (h : l.drop p = bs ++ rest) :
    readElems fuel (ty : Int) (tagsLength ts) ⟨l, p⟩ =
      .ok (ts, ⟨l, p + bs.length⟩) := by
  cases ts with
  | nil =>
    simp only [writeTags, Except.ok.injEq] at hw
    subst hw
    rw [tagsLength]
    simp [readElems_0]
  | cons t ts' =>
    rw [writeTags.eq_def] at hw
    simp only at hw
    cases hw1 : writePayload t with
    | error e => rw [hw1] at hw; simp [Except.bind, bind] at hw
    | ok b1 =>
      rw [hw1] at hw
      cases hw2 : writeTags ts' with
      | error e => rw [hw2] at hw; simp [Except.bind, bind] at hw
      | ok b2 =>
        rw [hw2] at hw
        simp only [Except.bind, bind, Except.ok.injEq] at hw
        subst hw
        rw [wfElems.eq_def] at hwf
        simp only [Bool.and_eq_true, beq_iff_eq] at hwf
        rw [tagsAllType.eq_def] at hty
        simp only [Bool.and_eq_true, beq_iff_eq] at hty
        have hefc : elemsFuel (.cons t ts') =
            Nat.max (tagFuel t) (elemsFuel ts') + 1 := by
          rw [elemsFuel.eq_def]
        rw [hefc] at hf
        have hmax1 : tagFuel t ≤ Nat.max (tagFuel t) (elemsFuel ts') :=
          Nat.le_max_left _ _
        have hmax2 : elemsFuel ts' ≤ Nat.max (tagFuel t) (elemsFuel ts') :=
          Nat.le_max_right _ _
        obtain ⟨f, rfl⟩ : ∃ f, fuel = f + 1 := ⟨fuel - 1, by omega⟩
        rw [tagsLength]
        rw [readElems_succ]
        rw [List.append_assoc] at h
        have hfp : tagFuel t ≤ f := by omega
        have hty1 : (ty : Int) = (tagTypeId t : Int) := by rw [hty.1]
        rw [hty1, writePayload_rt t b1 f l p (b2 ++ rest) hwf.1.2 hw1 hfp hp h]
        simp only [Except.bind, bind]
        rw [setName_of_name hwf.1.1]
        have hp1 : p + b1.length ≤ l.length := len_of_drop hp h
        have h1 : l.drop (p + b1.length) = b2 ++ rest := drop_of_drop h
        have hfe : elemsFuel ts' ≤ f := by omega
        have := writeTags_rt ts' ty b2 f l (p + b1.length) rest hwf.2
          hty.2 hw2 hfe hp1 h1
        rw [hty1] at this
        rw [this]
        simp
        omega
theorem writeEntries_rt (es : Entries) (acc : Entries) (bs : List Nat)
    (fuel : Nat) (l : List Nat) (p : Nat) (rest : List Nat)
    (hwf : wfEntries es = true) (hnd : (entryKeys es).Nodup)
    (hdisj : ∀ k ∈ entryKeys es, k ∉ entryKeys acc)
    (hw : writeEntries es = .ok bs) (hf : entriesFuel es ≤ fuel)
    (hp : p ≤ l.length) (h : l.drop p = bs ++ 0 :: rest) :
    readEntries fuel acc ⟨l, p⟩ =
      .ok (entriesAppend acc es, ⟨l, p + bs.length + 1⟩) := by
  cases es with
  | nil =>
    simp only [writeEntries, Except.ok.injEq] at hw
    subst hw
    simp only [List.nil_append] at h
    have h0 := rdI8_spec hp h
    have ht0 : toI8 0 = 0 := by simp [toI8]
    rw [entriesAppend_nilR]
    cases fuel with
    | zero =>
      rw [readEntries_zero]
      simp [Except.bind, bind, h0, ht0]
    | succ f =>
      rw [readEntries_succ]
      simp [Except.bind, bind, h0, ht0]
  | cons k t es' =>
    rw [wfEntries.eq_def] at hwf
    simp only [Bool.and_eq_true, beq_iff_eq, decide_eq_true_eq] at hwf
    have hname := hwf.1.1.1
    have htid0 := hwf.1.1.2
    have hwft := hwf.1.2
    have hwfes := hwf.2
    simp only [entryKeys, List.nodup_cons] at hnd
    rw [writeEntries] at hw
    rw [hname] at hw
    simp only at hw
    cases hwp : writePayload t with
    | error e => rw [hwp] at hw; simp [Except.map, Except.bind, bind] at hw
    | ok pb =>
      rw [hwp] at hw
      cases hwe2 : writeEntries es' with
      | error e =>
        rw [hwe2] at hw
        simp [Except.map, Except.bind, bind] at hw
      | ok b2 =>
        rw [hwe2] at hw
        simp only [Except.map, Except.bind, bind, Except.ok.injEq] at hw
        subst hw
        have hnm := wfTag_name hwft
        rw [hname] at hnm
        simp only [wfName, Bool.and_eq_true, decide_eq_true_eq] at hnm
        have hefc : entriesFuel (.cons k t es') =
            Nat.max (tagFuel t) (entriesFuel es') + 1 := by
          rw [entriesFuel.eq_def]
        rw [hefc] at hf
        have hmax1 : tagFuel t ≤ Nat.max (tagFuel t) (entriesFuel es') :=
          Nat.le_max_left _ _
        have hmax2 : entriesFuel es' ≤ Nat.max (tagFuel t) (entriesFuel es') :=
          Nat.le_max_right _ _
        obtain ⟨f, rfl⟩ : ∃ f, fuel = f + 1 := ⟨fuel - 1, by omega⟩
        rw [readEntries_succ]
        simp only [List.append_assoc, List.cons_append] at h
        have hid1 : (-128 : Int) ≤ ((tagTypeId t : Nat) : Int) := by omega
        have hid2 : ((tagTypeId t : Nat) : Int) < 128 := by
          have := tagTypeId_lt t
          omega
        rw [rdI8_wByte hid1 hid2 hp h]
        simp only [Except.bind, bind]
        have hnz : ¬ ((tagTypeId t : Nat) : Int) = 0 := by
          simpa using htid0
        rw [if_neg hnz]
        have hb1 : l.drop (p + 1) =
            encU16 k.length ++ (wBytes k ++ (pb ++ (b2 ++ 0 :: rest))) := by
          have := drop_of_drop h


          rw [wUShort, Nat.mod_eq_of_lt hnm.1] at this
          simpa [wByte] using this
        have hp1 : p + 1 ≤ l.length := by
          have := len_of_drop hp h
          simp [wByte] at this
          omega
        rw [rdU16_enc hnm.1 hp1 hb1]
        simp only [Except.bind, bind]
        have hb3 : l.drop (p + 1 + 2) = wBytes k ++ (pb ++ (b2 ++ 0 :: rest)) := by
          have := drop_of_drop hb1
          simpa [encU16] using this
        have hp3 : p + 1 + 2 ≤ l.length := by
          have := len_of_drop hp1 hb1
          simp [encU16] at this
          omega
        have hck : (wBytes k).length = k.length := by simp [wBytes]
        have hrb := rdBytesN_spec hp3 hb3
        rw [hck] at hrb
        rw [hrb]
        simp only [Except.bind, bind]
        rw [wBytes_eq_self hnm.2] at hrb ⊢
        have hb4 : l.drop (p + 1 + 2 + k.length) = pb ++ (b2 ++ 0 :: rest) := by
          have := drop_of_drop hb3
          rwa [hck] at this
        have hp4 : p + 1 + 2 + k.length ≤ l.length := by
          have := len_of_drop hp3 hb3
          omega
        have hfp : tagFuel t ≤ f := by omega
        rw [writePayload_rt t pb f l (p + 1 + 2 + k.length) (b2 ++ 0 :: rest)
          hwft hwp hfp hp4 hb4]
        simp only [Except.bind, bind]
        rw [setName_setName, setName_of_name hname]
        rw [mapSet_fresh (hdisj k (by simp [entryKeys]))]
        have hp5 : p + 1 + 2 + k.length + pb.length ≤ l.length :=
          len_of_drop hp4 hb4
        have hb5 : l.drop (p + 1 + 2 + k.length + pb.length) = b2 ++ 0 :: rest :=
          drop_of_drop hb4
        have hfe : entriesFuel es' ≤ f := by omega
        have hdisj' : ∀ k' ∈ entryKeys es',
            k' ∉ entryKeys (entriesAppend acc (.cons k t .nil)) := by
          intro k' hk'
          rw [entryKeys_entriesAppend]
          simp only [entryKeys, List.mem_append, List.mem_cons, List.mem_singleton]
          rintro (hmem | hmem)
          · exact hdisj k' (by simp [entryKeys, hk']) hmem
          · rcases hmem with hmem | hmem
            · exact hnd.1 (hmem ▸ hk')
            · simp [entryKeys] at hmem
        rw [writeEntries_rt es' (entriesAppend acc (.cons k t .nil)) b2 f l
          (p + 1 + 2 + k.length + pb.length) rest hwfes hnd.2 hdisj' hwe2 hfe
          hp5 hb5]
        rw [entriesAppend_assoc]
        have : entriesAppend (.cons k t .nil) es' = .cons k t es' := by
          simp [entriesAppend]
        rw [this]
        simp [wByte, wUShort, encU16, wBytes]
        omega
end

/-- Document-level round trip: `TagIO.read` inverts `TagIO.write` in
standard mode for a well-formed compound with a (possibly empty)
non-null name. -/
theorem tagIo_rt (nm : List Nat) (es : Entries) (bs : List Nat) (fuel : Nat)
    (hwf : wfTag (.tCompound (some nm) es) = true)
    (hw : tagIoWrite (.tCompound (some nm) es) false = .ok bs)
    (hf : entriesFuel es ≤ fuel) :
    tagIoRead fuel bs false = .ok (.tCompound (some nm) es) := by
  rw [tagIoWrite] at hw
  simp only [Except.bind, bind, tagName] at hw
  rw [wfTag.eq_def] at hwf
  simp only [Bool.and_eq_true, decide_eq_true_eq] at hwf
  have hnm : wfName (some nm) = true := by
    have := hwf.1.1
    simpa [wfName] using this
  simp only [wfName, Bool.and_eq_true, decide_eq_true_eq] at hnm
  simp only [writePayload] at hw
  cases hwe : writeEntries es with
  | error e => rw [hwe] at hw; simp [Except.map] at hw
  | ok bsE =>
    rw [hwe] at hw
    simp only [Except.map, Except.ok.injEq, Option.getD, Bool.false_eq_true,
      if_false] at hw
    subst hw
    rw [tagIoRead]
    simp only [Bool.false_eq_true, if_false]
    have hsplit : (wByte 10 ++ (wUShort nm.length ++ wBytes nm) ++ (bsE ++ wByte 0)) =
        wByte 10 ++ (encU16 nm.length ++ (wBytes nm ++ (bsE ++ 0 :: []))) := by
      simp [wUShort, Nat.mod_eq_of_lt hnm.1, wByte, List.append_assoc]
    rw [hsplit]
    set l := wByte 10 ++ (encU16 nm.length ++ (wBytes nm ++ (bsE ++ 0 :: []))) with hl
    have h0 : l.drop 0 = wByte 10 ++ (encU16 nm.length ++ (wBytes nm ++ (bsE ++ 0 :: []))) := by
      simp [hl]
    rw [rdI8_wByte (by norm_num) (by norm_num) (by omega) h0]
    simp only [Except.bind, bind, if_true]
    have h1 : l.drop 1 = encU16 nm.length ++ (wBytes nm ++ (bsE ++ 0 :: [])) := by
      have := drop_of_drop (p := 0) h0
      simpa [wByte] using this
    have hp1 : (1 : Nat) ≤ l.length := by
      have := len_of_drop (p := 0) (by omega) h0
      simp [wByte] at this
      omega
    rw [rdU16_enc hnm.1 hp1 h1]
    simp only [Except.bind, bind]
    have h3 : l.drop (1 + 2) = wBytes nm ++ (bsE ++ 0 :: []) := by
      have := drop_of_drop h1
      simpa [encU16] using this
    have hp3 : 1 + 2 ≤ l.length := by
      have := len_of_drop hp1 h1
      simp [encU16] at this
      omega
    have hck : (wBytes nm).length = nm.length := by simp [wBytes]
    by_cases hz : nm.length > 0
    · rw [if_pos hz]
      have hrb := rdBytesN_spec hp3 h3
      rw [hck] at hrb
      rw [hrb]
      simp only [Except.bind, bind]
      rw [wBytes_eq_self hnm.2]
      have hb4 : l.drop (1 + 2 + nm.length) = bsE ++ 0 :: [] := by
        have := drop_of_drop h3
        rwa [hck] at this
      have hp4 : 1 + 2 + nm.length ≤ l.length := by
        have := len_of_drop hp3 h3
        omega
      rw [writeEntries_rt es .nil bsE fuel l (1 + 2 + nm.length) [] hwf.1.2
        hwf.2 (by intro x hx; simp [entryKeys]) hwe hf hp4 hb4]
      simp [entriesAppend_nilL]
    · rw [if_neg hz]
      have hnil : nm = [] := by
        cases nm with
        | nil => rfl
        | cons a b => simp at hz
      subst hnil
      have hb4 : l.drop (1 + 2) = bsE ++ 0 :: [] := by
        simpa [wBytes] using h3
      rw [writeEntries_rt es .nil bsE fuel l (1 + 2) [] hwf.1.2
        hwf.2 (by intro x hx; simp [entryKeys]) hwe hf hp3 hb4]
      simp [entriesAppend_nilL]

/-! ## Lemmas: region buffer primitives -/

theorem chunkIndex_lt (x z : Nat) : chunkIndex x z < 1024 := by
  unfold chunkIndex
  have h1 : x % 32 < 32 := Nat.mod_lt _ (by norm_num)
  have h2 : z % 32 < 32 := Nat.mod_lt _ (by norm_num)
  omega

theorem dvSetBytes_ok {s : Buf} {o : Nat} {bs : List Nat}
    (h : o + bs.length ≤ s.size) :
    dvSetBytes s o bs = .ok ⟨s.size,
      fun i => if o ≤ i ∧ i < o + bs.length then bs.getD (i - o) 0 % 256
        else s.data i⟩ := by
  simp [dvSetBytes, h]

theorem encU32_getD_lt (u j : Nat) : (encU32 u).getD j 0 < 256 := by
  rcases j with _ | _ | _ | _ | j <;> simp [encU32, List.getD] <;> omega

theorem dvGetU32_bytes {s : Buf} {o u : Nat} (ho : o + 4 ≤ s.size)
    (hu : u < 4294967296)
    (h : ∀ j, j < 4 → s.data (o + j) = (encU32 u).getD j 0) :
    dvGetU32 s o = .ok u := by
  have h0 := h 0 (by norm_num)
  have h1 := h 1 (by norm_num)
  have h2 := h 2 (by norm_num)
  have h3 := h 3 (by norm_num)
  simp [encU32] at h0 h1 h2 h3
  simp only [dvGetU32, if_pos ho]
  rw [h0, h1, h2, h3]
  congr 1
  omega

/-- The net effect of the four stores of `writeRecord` when the record
area sits past both header tables and inside the buffer. -/
theorem writeRecord_spec (s : Buf) (wo dataLength : Nat) (cd : List Nat)
    (x z now : Nat) (hwo : 8192 ≤ wo) (hrec : wo + 5 + cd.length ≤ s.size)
    (hsz : 8192 ≤ s.size) :
    (writeRecord s wo dataLength cd x z now).1 = .ok () ∧
    ((writeRecord s wo dataLength cd x z now).2).size = s.size ∧
    (∀ i, (¬ (wo ≤ i ∧ i < wo + 5 + cd.length)) →
      (¬ (4096 + chunkIndex x z * 4 ≤ i ∧ i < 4096 + chunkIndex x z * 4 + 4)) →
      ((writeRecord s wo dataLength cd x z now).2).data i = s.data i) ∧
    (∀ j, j < 4 → ((writeRecord s wo dataLength cd x z now).2).data (wo + j) =
      (encU32 dataLength).getD j 0) ∧
    ((writeRecord s wo dataLength cd x z now).2).data (wo + 4) = 2 ∧
    (∀ j, j < cd.length →
      ((writeRecord s wo dataLength cd x z now).2).data (wo + 5 + j) =
        cd.getD j 0 % 256) ∧
    (∀ j, j < 4 →
      ((writeRecord s wo dataLength cd x z now).2).data
        (4096 + chunkIndex x z * 4 + j) = (encU32 now).getD j 0) := by
  have hidx := chunkIndex_lt x z
  have hts : 4096 + chunkIndex x z * 4 + 4 ≤ 8192 := by omega
  have e1 : (encU32 dataLength).length = 4 := by simp [encU32]
  have e2 : (encU32 now).length = 4 := by simp [encU32]
  have e3 : ([2] : List Nat).length = 1 := rfl
  unfold writeRecord
  rw [dvSetBytes_ok (by rw [e1]; omega)]
  set s1 : Buf := ⟨s.size, fun i =>
    if wo ≤ i ∧ i < wo + (encU32 dataLength).length then
      (encU32 dataLength).getD (i - wo) 0 % 256
    else s.data i⟩ with hs1
  dsimp only
  rw [dvSetBytes_ok (show wo + 4 + ([2] : List Nat).length ≤ s1.size by
    simp [hs1]; omega)]
  set s2 : Buf := ⟨s1.size, fun i =>
    if wo + 4 ≤ i ∧ i < wo + 4 + ([2] : List Nat).length then
      ([2] : List Nat).getD (i - (wo + 4)) 0 % 256
    else s1.data i⟩ with hs2
  dsimp only
  rw [dvSetBytes_ok (show wo + 5 + cd.length ≤ s2.size by simp [hs2, hs1]; omega)]
  set s3 : Buf := ⟨s2.size, fun i =>
    if wo + 5 ≤ i ∧ i < wo + 5 + cd.length then cd.getD (i - (wo + 5)) 0 % 256
    else s2.data i⟩ with hs3
  dsimp only
  rw [dvSetBytes_ok (show 4096 + chunkIndex x z * 4 + (encU32 now).length ≤ s3.size by
    simp [hs3, hs2, hs1]; omega)]
  dsimp only
  refine ⟨rfl, by simp [hs3, hs2, hs1], ?_, ?_, ?_, ?_, ?_⟩
  · intro i hi hts'
    simp only [hs3, hs2, hs1, e1, e2, e3]
    rw [if_neg (by omega), if_neg (by omega), if_neg (by omega),
      if_neg (by omega)]
  · intro j hj
    simp only [hs3, hs2, hs1, e1, e2, e3]
    rw [if_neg (by omega), if_neg (by omega), if_neg (by omega),
      if_pos (by omega : wo ≤ wo + j ∧ wo + j < wo + 4)]
    rw [Nat.add_sub_cancel_left, Nat.mod_eq_of_lt (encU32_getD_lt _ _)]
  · simp only [hs3, hs2, hs1, e1, e2, e3]
    rw [if_neg (by omega), if_neg (by omega),
      if_pos (by omega : wo + 4 ≤ wo + 4 ∧ wo + 4 < wo + 4 + 1)]
    simp
  · intro j hj
    simp only [hs3, hs2, hs1, e1, e2, e3]
    rw [if_neg (by omega), if_pos (by omega : wo + 5 ≤ wo + 5 + j ∧
      wo + 5 + j < wo + 5 + cd.length)]
    rw [Nat.add_sub_cancel_left]
  · intro j hj
    simp only [hs3, hs2, hs1, e1, e2, e3]
    rw [if_pos (by omega : 4096 + chunkIndex x z * 4 ≤ 4096 + chunkIndex x z * 4 + j ∧
      4096 + chunkIndex x z * 4 + j < 4096 + chunkIndex x z * 4 + 4)]
    rw [Nat.add_sub_cancel_left, Nat.mod_eq_of_lt (encU32_getD_lt _ _)]

/-! ## Lemmas: region writeChunk branches -/

theorem encU32_zero (j : Nat) : (encU32 0).getD j 0 = 0 := by
  rcases j with _ | _ | _ | _ | j <;> simp [encU32, List.getD]

theorem range_map_getD {n : Nat} {f : Nat → Nat} {cd : List Nat}
    (hn : n = cd.length) (hf : ∀ i, i < n → f i = cd.getD i 0) :
    (List.range n).map f = cd := by
  subst hn
  apply List.ext_getElem (by simp)
  intro i h1 h2
  simp only [List.getElem_map, List.getElem_range]
  rw [hf i (by simpa using h1)]
  rw [List.getD_eq_getElem _ _ h2]

theorem getD_lt_of_all {cd : List Nat} {i : Nat}
    (hb : cd.all (· < 256) = true) (hi : i < cd.length) : cd.getD i 0 < 256 := by
  rw [List.getD_eq_getElem _ _ hi]
  simp only [List.all_eq_true, decide_eq_true_eq] at hb
  exact hb _ (cd.getElem_mem hi)

/-- The in-place branch of `writeChunk`: an existing allocation that is
big enough is overwritten where it sits. -/
theorem writeChunk_inPlace (compress : List Nat → List Nat) (now : Nat)
    (s : Buf) (x z : Nat) (tag : Tag) (nbt : List Nat) (info : Nat)
    (hw : tagIoWrite tag false = .ok nbt)
    (hinfo : getOffsetInfo s x z = .ok info)
    (hip : 2 ≤ info / 256 ∧
      (4 + ((compress nbt).length + 1) + 4095) / 4096 ≤ info % 256) :
    writeChunk compress now s x z tag =
      writeRecord s (info / 256 * 4096) ((compress nbt).length + 1)
        (compress nbt) x z now := by
  unfold writeChunk
  rw [hw]
  dsimp only
  rw [hinfo]
  dsimp only
  rw [if_pos hip]

/-- The append branch of `writeChunk`: no usable existing allocation, so
the record goes after the 4096-aligned end of the buffer, the buffer is
grown zero-filled, and the slot's location word is rewritten. -/
theorem writeChunk_append (compress : List Nat → List Nat) (now : Nat)
    (s : Buf) (x z : Nat) (tag : Tag) (nbt : List Nat) (info : Nat)
    (hsz : 8192 ≤ s.size)
    (hw : tagIoWrite tag false = .ok nbt)
    (hinfo : getOffsetInfo s x z = .ok info)
    (hnot : ¬ (2 ≤ info / 256 ∧
      (4 + ((compress nbt).length + 1) + 4095) / 4096 ≤ info % 256))
    (hes : (s.size + 4095) / 4096 ≤ 16777215)
    (hsn : (4 + ((compress nbt).length + 1) + 4095) / 4096 ≤ 255) :
    (writeChunk compress now s x z tag).1 = .ok () ∧
    (writeChunk compress now s x z tag).2.size =
      (s.size + 4095) / 4096 * 4096 +
        (4 + ((compress nbt).length + 1) + 4095) / 4096 * 4096 ∧
    (∀ j, j < 4 →
      (writeChunk compress now s x z tag).2.data (chunkIndex x z * 4 + j) =
        (encU32 ((s.size + 4095) / 4096 * 256 +
          (4 + ((compress nbt).length + 1) + 4095) / 4096)).getD j 0) ∧
    (∀ j, j < 4 →
      (writeChunk compress now s x z tag).2.data
        (4096 + chunkIndex x z * 4 + j) = (encU32 now).getD j 0) ∧
    (∀ i, i < s.size →
      ¬ (chunkIndex x z * 4 ≤ i ∧ i < chunkIndex x z * 4 + 4) →
      ¬ (4096 + chunkIndex x z * 4 ≤ i ∧ i < 4096 + chunkIndex x z * 4 + 4) →
      (writeChunk compress now s x z tag).2.data i = s.data i) ∧
    (∀ j, j < 4 →
      (writeChunk compress now s x z tag).2.data
        ((s.size + 4095) / 4096 * 4096 + j) =
        (encU32 ((compress nbt).length + 1)).getD j 0) ∧
    (writeChunk compress now s x z tag).2.data
      ((s.size + 4095) / 4096 * 4096 + 4) = 2 ∧
    (∀ j, j < (compress nbt).length →
      (writeChunk compress now s x z tag).2.data
        ((s.size + 4095) / 4096 * 4096 + 5 + j) =
        (compress nbt).getD j 0 % 256) ∧
    (∀ i, s.size ≤ i →
      ¬ ((s.size + 4095) / 4096 * 4096 ≤ i ∧
        i < (s.size + 4095) / 4096 * 4096 + 5 + (compress nbt).length) →
      (writeChunk compress now s x z tag).2.data i = 0) := by
  have hidx := chunkIndex_lt x z
  have hel : (encU32 ((s.size + 4095) / 4096 * 256 +
      (4 + ((compress nbt).length + 1) + 4095) / 4096)).length = 4 := by
    simp [encU32]
  have heq : writeChunk compress now s x z tag =
      writeRecord
        ⟨(s.size + 4095) / 4096 * 4096 +
            (4 + ((compress nbt).length + 1) + 4095) / 4096 * 4096,
         fun i =>
           if chunkIndex x z * 4 ≤ i ∧
               i < chunkIndex x z * 4 +
                 (encU32 ((s.size + 4095) / 4096 * 256 +
                   (4 + ((compress nbt).length + 1) + 4095) / 4096)).length then
             (encU32 ((s.size + 4095) / 4096 * 256 +
               (4 + ((compress nbt).length + 1) + 4095) / 4096)).getD
                 (i - chunkIndex x z * 4) 0 % 256
           else if i < s.size then s.data i else 0⟩
        ((s.size + 4095) / 4096 * 4096) ((compress nbt).length + 1)
        (compress nbt) x z now := by
    unfold writeChunk
    rw [hw]
    dsimp only
    rw [hinfo]
    dsimp only
    rw [if_neg hnot]
    rw [if_pos (show (s.size + 4095) / 4096 * 4096 +
      (4 + ((compress nbt).length + 1) + 4095) / 4096 * 4096 > s.size by omega)]
    rw [if_neg (show ¬ (s.size + 4095) / 4096 > 0xFFFFFF by omega)]
    rw [if_neg (show ¬ (4 + ((compress nbt).length + 1) + 4095) / 4096 > 0xFF by
      omega)]
    rw [dvSetBytes_ok (show chunkIndex x z * 4 +
      (encU32 ((s.size + 4095) / 4096 * 256 +
        (4 + ((compress nbt).length + 1) + 4095) / 4096)).length ≤
      (expandBuffer s ((s.size + 4095) / 4096 * 4096 +
        (4 + ((compress nbt).length + 1) + 4095) / 4096 * 4096)).size by
        rw [hel]
        dsimp only [expandBuffer]
        omega)]
    dsimp only [expandBuffer]
  rw [heq]
  set B : Buf :=
    ⟨(s.size + 4095) / 4096 * 4096 +
        (4 + ((compress nbt).length + 1) + 4095) / 4096 * 4096,
     fun i =>
       if chunkIndex x z * 4 ≤ i ∧
           i < chunkIndex x z * 4 +
             (encU32 ((s.size + 4095) / 4096 * 256 +
               (4 + ((compress nbt).length + 1) + 4095) / 4096)).length then
         (encU32 ((s.size + 4095) / 4096 * 256 +
           (4 + ((compress nbt).length + 1) + 4095) / 4096)).getD
             (i - chunkIndex x z * 4) 0 % 256
       else if i < s.size then s.data i else 0⟩ with hB
  obtain ⟨g1, g2, g3, g4, g5, g6, g7⟩ := writeRecord_spec B
    ((s.size + 4095) / 4096 * 4096) ((compress nbt).length + 1)
    (compress nbt) x z now (by omega)
    (by rw [hB]; dsimp only; omega) (by rw [hB]; dsimp only; omega)
  refine ⟨g1, ?_, ?_, g7, ?_, g4, g5, g6, ?_⟩
  · rw [g2, hB]
  · intro j hj
    rw [g3 (chunkIndex x z * 4 + j) (by omega) (by omega), hB]
    dsimp only
    rw [hel, if_pos (show chunkIndex x z * 4 ≤ chunkIndex x z * 4 + j ∧
      chunkIndex x z * 4 + j < chunkIndex x z * 4 + 4 by omega)]
    rw [Nat.add_sub_cancel_left, Nat.mod_eq_of_lt (encU32_getD_lt _ _)]
  · intro i hi hA hT
    rw [g3 i (by omega) hT, hB]
    dsimp only
    rw [hel, if_neg hA, if_pos hi]
  · intro i hge hout
    rw [g3 i hout (by omega), hB]
    dsimp only
    rw [hel, if_neg (by omega), if_neg (by omega)]

/-! ## Claims C3 and C4 -/

/-- C3: `writeChunk` overwrites in place when the existing allocation
(`offset ≥ 2`, enough sectors) suffices, leaving the whole location table
untouched and updating only the timestamp word; otherwise it appends
after the 4096-aligned end of the buffer, grows the buffer zero-filled,
and writes the new (offset, count) location word.  In both cases the
4-byte big-endian length, the compression-type byte 2 and the compressed
payload are written at the chosen offset. -/
theorem claim_C3 (compress : List Nat → List Nat) (now : Nat) (s : Buf)
    (x z : Nat) (tag : Tag) (nbt : List Nat) (info : Nat)
    (hsz : 8192 ≤ s.size)
    (hw : tagIoWrite tag false = .ok nbt)
    (hinfo : getOffsetInfo s x z = .ok info) :
    ((2 ≤ info / 256 ∧
        (4 + ((compress nbt).length + 1) + 4095) / 4096 ≤ info % 256) →
      info / 256 * 4096 + 5 + (compress nbt).length ≤ s.size →
      (writeChunk compress now s x z tag).1 = .ok () ∧
      (writeChunk compress now s x z tag).2.size = s.size ∧
      (∀ i, i < 4096 → (writeChunk compress now s x z tag).2.data i = s.data i) ∧
      (∀ j, j < 4 →
        (writeChunk compress now s x z tag).2.data
          (4096 + chunkIndex x z * 4 + j) = (encU32 now).getD j 0) ∧
      (∀ j, j < 4 →
        (writeChunk compress now s x z tag).2.data (info / 256 * 4096 + j) =
          (encU32 ((compress nbt).length + 1)).getD j 0) ∧
      (writeChunk compress now s x z tag).2.data (info / 256 * 4096 + 4) = 2 ∧
      (∀ j, j < (compress nbt).length →
        (writeChunk compress now s x z tag).2.data (info / 256 * 4096 + 5 + j) =
          (compress nbt).getD j 0 % 256)) ∧
    (¬ (2 ≤ info / 256 ∧
        (4 + ((compress nbt).length + 1) + 4095) / 4096 ≤ info % 256) →
      (s.size + 4095) / 4096 ≤ 16777215 →
      (4 + ((compress nbt).length + 1) + 4095) / 4096 ≤ 255 →
      (writeChunk compress now s x z tag).1 = .ok () ∧
      (writeChunk compress now s x z tag).2.size =
        (s.size + 4095) / 4096 * 4096 +
          (4 + ((compress nbt).length + 1) + 4095) / 4096 * 4096 ∧
      (∀ j, j < 4 →
        (writeChunk compress now s x z tag).2.data (chunkIndex x z * 4 + j) =
          (encU32 ((s.size + 4095) / 4096 * 256 +
            (4 + ((compress nbt).length + 1) + 4095) / 4096)).getD j 0) ∧
      (∀ j, j < 4 →
        (writeChunk compress now s x z tag).2.data
          (4096 + chunkIndex x z * 4 + j) = (encU32 now).getD j 0) ∧
      (∀ i, i < s.size →
        ¬ (chunkIndex x z * 4 ≤ i ∧ i < chunkIndex x z * 4 + 4) →
        ¬ (4096 + chunkIndex x z * 4 ≤ i ∧ i < 4096 + chunkIndex x z * 4 + 4) →
        (writeChunk compress now s x z tag).2.data i = s.data i) ∧
      (∀ j, j < 4 →
        (writeChunk compress now s x z tag).2.data
          ((s.size + 4095) / 4096 * 4096 + j) =
          (encU32 ((compress nbt).length + 1)).getD j 0) ∧
      (writeChunk compress now s x z tag).2.data
        ((s.size + 4095) / 4096 * 4096 + 4) = 2 ∧
      (∀ j, j < (compress nbt).length →
        (writeChunk compress now s x z tag).2.data
          ((s.size + 4095) / 4096 * 4096 + 5 + j) =
          (compress nbt).getD j 0 % 256) ∧
      (∀ i, s.size ≤ i →
        ¬ ((s.size + 4095) / 4096 * 4096 ≤ i ∧
          i < (s.size + 4095) / 4096 * 4096 + 5 + (compress nbt).length) →
        (writeChunk compress now s x z tag).2.data i = 0)) := by
  have hidx := chunkIndex_lt x z
  constructor
  · intro hip hfit
    rw [writeChunk_inPlace compress now s x z tag nbt info hw hinfo hip]
    obtain ⟨g1, g2, g3, g4, g5, g6, g7⟩ := writeRecord_spec s
      (info / 256 * 4096) ((compress nbt).length + 1) (compress nbt) x z now
      (by omega) hfit hsz
    refine ⟨g1, g2, ?_, g7, g4, g5, g6⟩
    intro i hi
    exact g3 i (by omega) (by omega)
  · intro hnot hes hsn
    exact writeChunk_append compress now s x z tag nbt info hsz hw hinfo
      hnot hes hsn

/-- C3 witness: writing into slot (5,5) of the empty container appends
at offset 8192 and grows the file to 12288 bytes. -/
theorem claim_C3_witness :
    (writeChunk idCompress 0 regionEmpty 5 5 smallDoc).1 = .ok () ∧
    (writeChunk idCompress 0 regionEmpty 5 5 smallDoc).2.size = 12288 := by
  have h := (claim_C3 idCompress 0 regionEmpty 5 5 smallDoc
    [10, 0, 0, 3, 0, 1, 104, 0, 0, 0, 7, 0] 0 (by decide) (by decide)
    (by decide)).2 (by decide) (by decide) (by decide)
  refine ⟨h.1, ?_⟩
  rw [h.2.1]
  decide


/-- C4 (amended): when the append path's sector offset or sector count
overflows its field, `writeChunk` fails with the matching explicit error
after growing the buffer zero-filled but before writing the location
word, the timestamp word or any record byte: every pre-existing byte
(both header tables included) is unchanged. -/
theorem claim_C4 (compress : List Nat → List Nat) (now : Nat) (s : Buf)
    (x z : Nat) (tag : Tag) (nbt : List Nat) (info : Nat)
    (hw : tagIoWrite tag false = .ok nbt)
    (hinfo : getOffsetInfo s x z = .ok info)
    (hnot : ¬ (2 ≤ info / 256 ∧
      (4 + ((compress nbt).length + 1) + 4095) / 4096 ≤ info % 256)) :
    ((s.size + 4095) / 4096 > 16777215 →
      (writeChunk compress now s x z tag).1 = .error .fileTooLarge ∧
      (writeChunk compress now s x z tag).2.size =
        (s.size + 4095) / 4096 * 4096 +
          (4 + ((compress nbt).length + 1) + 4095) / 4096 * 4096 ∧
      (∀ i, (writeChunk compress now s x z tag).2.data i =
        if i < s.size then s.data i else 0)) ∧
    ((s.size + 4095) / 4096 ≤ 16777215 →
      (4 + ((compress nbt).length + 1) + 4095) / 4096 > 255 →
      (writeChunk compress now s x z tag).1 = .error .chunkTooLarge ∧
      (writeChunk compress now s x z tag).2.size =
        (s.size + 4095) / 4096 * 4096 +
          (4 + ((compress nbt).length + 1) + 4095) / 4096 * 4096 ∧
      (∀ i, (writeChunk compress now s x z tag).2.data i =
        if i < s.size then s.data i else 0)) := by
  constructor
  · intro hbig
    have heq : writeChunk compress now s x z tag =
        (.error .fileTooLarge, expandBuffer s ((s.size + 4095) / 4096 * 4096 +
          (4 + ((compress nbt).length + 1) + 4095) / 4096 * 4096)) := by
      unfold writeChunk
      rw [hw]
      dsimp only
      rw [hinfo]
      dsimp only
      rw [if_neg hnot]
      rw [if_pos (show (s.size + 4095) / 4096 * 4096 +
        (4 + ((compress nbt).length + 1) + 4095) / 4096 * 4096 > s.size by omega)]
      rw [if_pos (show (s.size + 4095) / 4096 > 0xFFFFFF by omega)]
    rw [heq]
    exact ⟨rfl, rfl, fun i => rfl⟩
  · intro hok hbig
    have heq : writeChunk compress now s x z tag =
        (.error .chunkTooLarge, expandBuffer s ((s.size + 4095) / 4096 * 4096 +
          (4 + ((compress nbt).length + 1) + 4095) / 4096 * 4096)) := by
      unfold writeChunk
      rw [hw]
      dsimp only
      rw [hinfo]
      dsimp only
      rw [if_neg hnot]
      rw [if_pos (show (s.size + 4095) / 4096 * 4096 +
        (4 + ((compress nbt).length + 1) + 4095) / 4096 * 4096 > s.size by omega)]
      rw [if_neg (show ¬ (s.size + 4095) / 4096 > 0xFFFFFF by omega)]
      rw [if_pos (show (4 + ((compress nbt).length + 1) + 4095) / 4096 > 0xFF by
        omega)]
    rw [heq]
    exact ⟨rfl, rfl, fun i => rfl⟩



/-- C4 counterexample to the claim as stated: an oversized compressed
payload makes `writeChunk` throw "Chunk too large", but only after the
buffer has already been grown from 8192 to 1056768 bytes, so the
container is not left exactly as before the call. -/
theorem claim_C4_counterexample :
    (writeChunk bigCompress 0 regionEmpty 0 0 smallDoc).1 =
      .error .chunkTooLarge ∧
    (writeChunk bigCompress 0 regionEmpty 0 0 smallDoc).2.size = 1056768 ∧
    regionEmpty.size = 8192 := by
  have hw : tagIoWrite smallDoc false =
      .ok [10, 0, 0, 3, 0, 1, 104, 0, 0, 0, 7, 0] := by decide
  have hlen : (bigCompress [10, 0, 0, 3, 0, 1, 104, 0, 0, 0, 7, 0]).length =
      1044476 := by simp only [bigCompress, List.length_replicate]
  have heq : writeChunk bigCompress 0 regionEmpty 0 0 smallDoc =
      (.error .chunkTooLarge, expandBuffer regionEmpty 1056768) := by
    unfold writeChunk
    rw [hw]
    dsimp only
    rw [(by decide : getOffsetInfo regionEmpty 0 0 = .ok 0)]
    dsimp only
    rw [hlen]
    rw [(by decide : regionEmpty.size = 8192)]
    rw [if_neg (show ¬ (2 ≤ 0 / 256 ∧
      (4 + (1044476 + 1) + 4095) / 4096 ≤ 0 % 256) by norm_num)]
    rw [if_pos (show (8192 + 4095) / 4096 * 4096 +
      (4 + (1044476 + 1) + 4095) / 4096 * 4096 > 8192 by norm_num)]
    rw [if_neg (show ¬ (8192 + 4095) / 4096 > 0xFFFFFF by norm_num)]
    rw [if_pos (show (4 + (1044476 + 1) + 4095) / 4096 > 0xFF by norm_num)]
  rw [heq]
  exact ⟨rfl, rfl, rfl⟩

/-- C4 witness: the oversized write reports "Chunk too large" and leaves
every byte of both 4096-byte header tables as it was. -/
theorem claim_C4_witness :
    (writeChunk bigCompress 0 regionEmpty 0 0 smallDoc).1 =
      .error .chunkTooLarge ∧
    (∀ i, i < 8192 →
      (writeChunk bigCompress 0 regionEmpty 0 0 smallDoc).2.data i =
        regionEmpty.data i) := by
  have h := (claim_C4 bigCompress 0 regionEmpty 0 0 smallDoc
    [10, 0, 0, 3, 0, 1, 104, 0, 0, 0, 7, 0] 0 (by decide) (by decide)
    (by decide)).2 (by decide)
    (by
      rw [(by simp only [bigCompress, List.length_replicate] :
        (bigCompress [10, 0, 0, 3, 0, 1, 104, 0, 0, 0, 7, 0]).length = 1044476)]
      norm_num)
  refine ⟨h.1, ?_⟩
  intro i hi
  rw [h.2.2 i, if_pos (show i < regionEmpty.size from hi)]

/-! ## Claims C2, C6, C8 -/

/-- C2: decoding the encoding of any well-formed (unnamed) tag of any of
the thirteen kinds yields the original tag: `readPayload` applied to the
bytes of `writePayload t` with `t`'s type id returns `t` itself, the
whole byte list consumed. -/
theorem claim_C2 (t : Tag) (bs : List Nat) (fuel : Nat)
    (hwf : wfTag t = true) (hnm : tagName t = none)
    (hw : writePayload t = .ok bs) (hf : tagFuel t ≤ fuel) :
    readPayload fuel (tagTypeId t : Int) ⟨bs, 0⟩ = .ok (t, ⟨bs, bs.length⟩) := by
  have h := writePayload_rt t bs fuel bs 0 [] hwf hw hf (by omega) (by simp)
  rw [setName_of_name hnm] at h
  simpa using h

/-- C2 witness: a document holding all thirteen tag kinds, among them the
empty string, the empty list, the empty compound, zero-length arrays,
Long = -1 and Int = 2147483647, decodes back from its 97 encoded bytes. -/
theorem claim_C2_witness :
    readPayload 50 (tagTypeId repDocU : Int) ⟨repDocUBytes, 0⟩ =
      .ok (repDocU, ⟨repDocUBytes, repDocUBytes.length⟩) :=
  claim_C2 repDocU repDocUBytes 50 (by decide) (by decide) (by decide)
    (by decide)

/-- C6: `detectCompression` answers GZip exactly for leading bytes
0x1F 0x8B, ZLib exactly under the source's three zlib-header conditions
(low nibble 8, implied window size at most 7, checksum divisible by 31),
None in every other case including inputs shorter than two bytes, and
`decompress` returns a None-detected input unchanged. -/
theorem claim_C6 (data : List Nat)
    (dwa : CFormat → List Nat → Except NErr (List Nat)) :
    (detectCompression data = .gzip ↔
      2 ≤ data.length ∧ data.getD 0 0 = 31 ∧ data.getD 1 0 = 139) ∧
    (detectCompression data = .zlib ↔
      2 ≤ data.length ∧ ¬ (data.getD 0 0 = 31 ∧ data.getD 1 0 = 139) ∧
        data.getD 0 0 % 16 = 8 ∧ data.getD 0 0 / 16 + 8 ≤ 7 ∧
        (data.getD 0 0 * 256 + data.getD 1 0) % 31 = 0) ∧
    (data.length < 2 → detectCompression data = CompressionType.none) ∧
    (detectCompression data = CompressionType.none →
      decompress dwa data = .ok data) := by
  have hid : detectCompression data = CompressionType.none →
      decompress dwa data = .ok data := by
    intro h
    rw [decompress, h]
  match data with
  | [] =>
    refine ⟨by simp [detectCompression], by simp [detectCompression], ?_, hid⟩
    intro _
    rfl
  | [b0] =>
    refine ⟨by simp [detectCompression], by simp [detectCompression], ?_, hid⟩
    intro _
    rfl
  | b0 :: b1 :: rest =>
    refine ⟨?_, ?_, ?_, hid⟩
    · simp only [List.getD_cons_zero, List.getD_cons_succ, List.length_cons]
      rw [detectCompression]
      constructor
      · intro h
        split_ifs at h with h1 h2 h3 h4
        exact ⟨by omega, h1.1, h1.2⟩
      · rintro ⟨-, h31, h139⟩
        rw [if_pos ⟨h31, h139⟩]
    · simp only [List.getD_cons_zero, List.getD_cons_succ, List.length_cons]
      rw [detectCompression]
      constructor
      · intro h
        split_ifs at h with h1 h2 h3 h4
        exact ⟨by omega, h1, h2, h3, h4⟩
      · rintro ⟨-, hn, hm, hw2, hc⟩
        rw [if_neg hn, if_pos hm, if_pos hw2, if_pos hc]
    · intro h
      simp only [List.length_cons] at h
      omega

/-- C6 witness: the three detector answers and the identity of
`decompress` on a None-detected input, at concrete bytes. -/
theorem claim_C6_witness :
    detectCompression [31, 139] = CompressionType.gzip ∧
    detectCompression [120, 156] = CompressionType.none ∧
    decompress idDwa [120, 156] = .ok [120, 156] := by
  refine ⟨(claim_C6 [31, 139] idDwa).1.mpr (by decide), ?_, ?_⟩
  · by_contra h
    rcases hd : detectCompression [120, 156] with _ | _ | _ | _
    · exact h hd
    · have := (claim_C6 [120, 156] idDwa).1.mp hd
      simp at this
    · have := (claim_C6 [120, 156] idDwa).2.1.mp hd
      simp at this
    · have : detectCompression [120, 156] = .raw := hd
      simp [detectCompression] at this
  · exact (claim_C6 [120, 156] idDwa).2.2.2 (by decide)

/-- C8: `TagIO.write` in file mode encodes a null root name as the empty
string (two zero length bytes) and succeeds whenever the payload writes,
while the generic `Tag.write` with `writeName = true` throws the
null-name error on the same tag. -/
theorem claim_C8 (es : Entries) (pl : List Nat)
    (hp : writePayload (.tCompound none es) = .ok pl) :
    tagIoWrite (.tCompound none es) false = .ok ([10, 0, 0] ++ pl) ∧
    tagWrite (.tCompound none es) true true = .error .nullName := by
  constructor
  · rw [tagIoWrite]
    simp only [Except.bind, bind, hp, tagName, Option.getD, Bool.false_eq_true,
      if_false]
    rfl
  · rw [tagWrite]
    simp [tagName]

/-- C8 witness: the empty unnamed root compound encodes to
`[10, 0, 0, 0]` via `TagIO.write`, while `Tag.write` rejects it. -/
theorem claim_C8_witness :
    tagIoWrite (.tCompound none .nil) false = .ok ([10, 0, 0] ++ [0]) ∧
    tagWrite (.tCompound none .nil) true true = .error .nullName :=
  claim_C8 .nil [0] (by decide)

/-! ## Claims C7 and C9 -/

theorem rdI32_spec {l : List Nat} {p b0 b1 b2 b3 : Nat} {rest : List Nat}
    (hp : p ≤ l.length) (h : l.drop p = b0 :: b1 :: b2 :: b3 :: rest) :
    rdI32 ⟨l, p⟩ =
      .ok (toI32 (b0 * 16777216 + b1 * 65536 + b2 * 256 + b3), ⟨l, p + 4⟩) := by
  simp [rdI32, rdU32_spec hp h, Except.map]

/-- Any tag `Tag.create(tid)` + `readPayload` returns carries the
requested type id and a null name. -/
theorem readPayload_shape (fuel : Nat) (tid : Int) (r : Rd) (t : Tag) (r2 : Rd)
    (h : readPayload fuel tid r = .ok (t, r2)) :
    (tagTypeId t : Int) = tid ∧ tagName t = none := by
  cases fuel with
  | zero =>
    rw [readPayload_zero] at h
    exact absurd h (by simp)
  | succ f =>
    have hd : readPayload (f + 1) tid r = (decStep (decAt f)).pay tid r := rfl
    rw [hd, decStep] at h
    dsimp only at h
    split at h
    all_goals try simp only [Except.map, Except.bind, bind] at h
    all_goals try (split at h)
    all_goals try (split at h)
    all_goals try (split at h)
    all_goals try (split at h)
    all_goals
      first
      | exact Except.noConfusion h
      | (simp only [Except.ok.injEq, Prod.mk.injEq] at h
         obtain ⟨h1, h2⟩ := h
         subst h1
         exact ⟨by simp [tagTypeId], by simp [tagName]⟩)

/-- Every list the decoder's element loop builds is homogeneous with the
declared element type. -/
theorem readElems_types : ∀ (fuel : Nat) (lt : Int) (n : Nat) (r : Rd)
    (ts : Tags) (r2 : Rd), readElems fuel lt n r = .ok (ts, r2) →
    tagsAllTypeI lt ts = true := by
  intro fuel
  induction fuel with
  | zero =>
    intro lt n r ts r2 h
    cases n with
    | zero =>
      rw [readElems_0] at h
      simp only [Except.ok.injEq, Prod.mk.injEq] at h
      rw [← h.1]
      rfl
    | succ m =>
      exact absurd h (by simp [readElems, decAt, decZero])
  | succ f ih =>
    intro lt n r ts r2 h
    cases n with
    | zero =>
      rw [readElems_0] at h
      simp only [Except.ok.injEq, Prod.mk.injEq] at h
      rw [← h.1]
      rfl
    | succ m =>
      rw [readElems_succ] at h
      simp only [Except.bind, bind] at h
      cases hp : readPayload f lt r with
      | error e => rw [hp] at h; simp at h
      | ok p =>
        rw [hp] at h
        obtain ⟨t1, r1⟩ := p
        dsimp only at h
        cases he : readElems f lt m r1 with
        | error e => rw [he] at h; simp at h
        | ok q =>
          rw [he] at h
          obtain ⟨ts1, r3⟩ := q
          simp only [Except.ok.injEq, Prod.mk.injEq] at h
          obtain ⟨h1, h2⟩ := h
          subst h1
          rw [tagsAllTypeI]
          simp only [Bool.and_eq_true, beq_iff_eq]
          exact ⟨(readPayload_shape f lt r t1 r1 hp).1, ih lt m r1 ts1 r3 he⟩

/-- C7 (amended): encoding a mixed list fails with the mixed-list error;
encoding an empty list emits the list's stored element type (not
necessarily End); and every decoded list is homogeneous with its declared
element type. -/
theorem claim_C7 (nm : Option (List Nat)) (lt : Int) (t0 : Tag) (tl : Tags)
    (fuel : Nat) (r r2 : Rd) (u : Tag)
    (hmix : tagsAllType (tagTypeId t0) tl = false)
    (hdec : readPayload fuel 9 r = .ok (u, r2)) :
    writePayload (.tList nm lt (.cons t0 tl)) = .error .mixedList ∧
    writePayload (.tList nm lt .nil) = .ok (wByte lt ++ wInt 0) ∧
    ∃ lt2 ts, u = .tList none lt2 ts ∧ tagsAllTypeI lt2 ts = true := by
  refine ⟨?_, ?_, ?_⟩
  · have hall : tagsAllType (tagTypeId t0) (.cons t0 tl) = false := by
      rw [tagsAllType, hmix]
      simp
    simp only [writePayload, hall, Bool.false_eq_true, if_false]
  · simp only [writePayload]
  · cases fuel with
    | zero =>
      rw [readPayload_zero] at hdec
      exact absurd hdec (by simp)
    | succ f =>
      rw [rp_succ_9] at hdec
      simp only [Except.bind, bind] at hdec
      cases h8 : rdI8 r with
      | error e => rw [h8] at hdec; simp at hdec
      | ok p =>
        rw [h8] at hdec
        obtain ⟨ltv, r1⟩ := p
        dsimp only at hdec
        cases h32 : rdI32 r1 with
        | error e => rw [h32] at hdec; simp at hdec
        | ok q =>
          rw [h32] at hdec
          obtain ⟨cnt, rc⟩ := q
          dsimp only at hdec
          split at hdec
          · simp only [Except.ok.injEq, Prod.mk.injEq] at hdec
            exact ⟨ltv, .nil, hdec.1.symm, rfl⟩
          · cases he : readElems f ltv cnt.toNat rc with
            | error e => rw [he] at hdec; simp at hdec
            | ok q2 =>
              rw [he] at hdec
              obtain ⟨es, r3⟩ := q2
              simp only [Except.ok.injEq, Prod.mk.injEq] at hdec
              exact ⟨ltv, es, hdec.1.symm,
                readElems_types f ltv cnt.toNat rc es r3 he⟩

/-- C7 counterexample to "an empty List emits declared element kind End":
an empty list whose stored element type is 3 (Int) writes the type byte
3, not 0. -/
theorem claim_C7_counterexample :
    writePayload (Tag.tList none 3 Tags.nil) = .ok [3, 0, 0, 0, 0] := by
  decide

/-- C7 witness: a mixed Byte/Short list fails to encode, the empty list
with stored type 1 emits type byte 1, and a decoded list is homogeneous. -/
theorem claim_C7_witness :
    writePayload (.tList none 1
      (.cons (.tByte none 1) (.cons (.tShort none 2) .nil))) =
      .error .mixedList ∧
    writePayload (.tList none 1 .nil) = .ok (wByte 1 ++ wInt 0) ∧
    ∃ lt2 ts, (Tag.tList none 3 Tags.nil) = .tList none lt2 ts ∧
      tagsAllTypeI lt2 ts = true :=
  claim_C7 none 1 (.tByte none 1) (.cons (.tShort none 2) .nil) 1
    ⟨[3, 255, 255, 255, 255], 0⟩ ⟨[3, 255, 255, 255, 255], 5⟩
    (.tList none 3 .nil) (by decide) (by decide)

/-- C9: a negative 4-byte element count in a List payload is treated as
zero elements — decoding succeeds with an empty list, consuming exactly
the type byte and the count — while an over-large positive count runs the
element loop into the end of the stream. -/
theorem claim_C9 (fuel : Nat) (l : List Nat) (p : Nat)
    (ty b0 b1 b2 b3 : Nat) (rest : List Nat)
    (hp : p ≤ l.length)
    (hdrop : l.drop p = ty :: b0 :: b1 :: b2 :: b3 :: rest)
    (hneg : toI32 (b0 * 16777216 + b1 * 65536 + b2 * 256 + b3) < 0) :
    readPayload (fuel + 1) 9 ⟨l, p⟩ =
      .ok (.tList none (toI8 ty) .nil, ⟨l, p + 5⟩) ∧
    readPayload (fuel + 3) 9 ⟨[3, 127, 255, 255, 255], 0⟩ =
      .error .endOfStream := by
  constructor
  · rw [rp_succ_9]
    simp only [Except.bind, bind]
    rw [rdI8_spec hp hdrop]
    dsimp only
    have h1 : l.drop (p + 1) = b0 :: b1 :: b2 :: b3 :: rest := by
      have := @drop_of_drop l p [ty] (b0 :: b1 :: b2 :: b3 :: rest)
        (by simpa using hdrop)
      simpa using this
    have hp1 : p + 1 ≤ l.length := by
      have := @len_of_drop l p [ty] (b0 :: b1 :: b2 :: b3 :: rest) hp
        (by simpa using hdrop)
      simpa using this
    rw [rdI32_spec hp1 h1]
    dsimp only
    rw [if_pos (le_of_lt hneg)]
  · rw [show fuel + 3 = (fuel + 2) + 1 from rfl, rp_succ_9]
    simp only [Except.bind, bind]
    rw [(by decide : rdI8 (⟨[3, 127, 255, 255, 255], 0⟩ : Rd) =
      .ok (3, ⟨[3, 127, 255, 255, 255], 1⟩))]
    dsimp only
    rw [(by decide : rdI32 (⟨[3, 127, 255, 255, 255], 1⟩ : Rd) =
      .ok (2147483647, ⟨[3, 127, 255, 255, 255], 5⟩))]
    dsimp only
    rw [if_neg (by decide : ¬ ((2147483647 : Int) ≤ 0))]
    rw [(by decide : ((2147483647 : Int)).toNat = 2147483646 + 1)]
    rw [show fuel + 2 = (fuel + 1) + 1 from rfl, readElems_succ]
    simp only [Except.bind, bind]
    rw [show fuel + 1 = fuel + 1 from rfl, rp_succ_3]
    rw [(by decide : rdI32 (⟨[3, 127, 255, 255, 255], 5⟩ : Rd) =
      .error .endOfStream)]
    simp [Except.map]

/-- C9 witness: count bytes FF FF FF FF (−1) give the empty list after
five bytes; count bytes 7F FF FF FF (2147483647) fail with
end-of-stream. -/
theorem claim_C9_witness :
    readPayload (2 + 1) 9 ⟨[3, 255, 255, 255, 255, 9], 0⟩ =
      .ok (.tList none (toI8 3) .nil, ⟨[3, 255, 255, 255, 255, 9], 0 + 5⟩) ∧
    readPayload (2 + 3) 9 ⟨[3, 127, 255, 255, 255], 0⟩ =
      .error .endOfStream :=
  claim_C9 2 [3, 255, 255, 255, 255, 9] 0 3 255 255 255 255 [9]
    (by decide) (by decide) (by decide)

/-! ## Claim C10 -/

theorem mapGet_mapSet (k : List Nat) (t : Tag) :
    ∀ (es : Entries), mapGet k (mapSet k t es) = some t
  | .nil => by simp [mapSet, mapGet]
  | .cons k2 t2 es => by
    by_cases hk : k2 = k
    · simp only [mapSet, if_pos hk, mapGet]
    · simp only [mapSet, if_neg hk, mapGet]
      exact mapGet_mapSet k t es

theorem namesMatchE_mapSet (k : List Nat) (t : Tag)
    (ht : tagName t = some k) :
    ∀ (es : Entries), namesMatchE es = true → namesMatchE (mapSet k t es) = true
  | .nil, _ => by simp [mapSet, namesMatchE, ht]
  | .cons k2 t2 es, he => by
    simp only [namesMatchE, Bool.and_eq_true] at he
    by_cases hk : k2 = k
    · simp only [mapSet, if_pos hk, namesMatchE, Bool.and_eq_true]
      exact ⟨by simp [ht, hk], he.2⟩
    · simp only [mapSet, if_neg hk, namesMatchE, Bool.and_eq_true]
      exact ⟨he.1, namesMatchE_mapSet k t ht es he.2⟩

/-- The compound entry loop preserves the name-equals-key invariant of
the map it builds. -/
theorem readEntries_names : ∀ (fuel : Nat) (acc : Entries) (r : Rd)
    (es : Entries) (r2 : Rd), readEntries fuel acc r = .ok (es, r2) →
    namesMatchE acc = true → namesMatchE es = true := by
  intro fuel
  induction fuel with
  | zero =>
    intro acc r es r2 h hacc
    rw [readEntries_zero] at h
    simp only [Except.bind, bind] at h
    cases h8 : rdI8 r with
    | error e => rw [h8] at h; simp at h
    | ok p =>
      rw [h8] at h
      obtain ⟨tid, r1⟩ := p
      dsimp only at h
      split at h
      · simp only [Except.ok.injEq, Prod.mk.injEq] at h
        rw [← h.1]
        exact hacc
      · exact absurd h (by simp)
  | succ f ih =>
    intro acc r es r2 h hacc
    rw [readEntries_succ] at h
    simp only [Except.bind, bind] at h
    cases h8 : rdI8 r with
    | error e => rw [h8] at h; simp at h
    | ok p =>
      rw [h8] at h
      obtain ⟨tid, r1⟩ := p
      dsimp only at h
      split at h
      · simp only [Except.ok.injEq, Prod.mk.injEq] at h
        rw [← h.1]
        exact hacc
      · cases h16 : rdU16 r1 with
        | error e => rw [h16] at h; simp at h
        | ok q =>
          rw [h16] at h
          obtain ⟨nl, r3⟩ := q
          dsimp only at h
          cases hnb : rdBytesN nl r3 with
          | error e => rw [hnb] at h; simp at h
          | ok q2 =>
            rw [hnb] at h
            obtain ⟨nb, r4⟩ := q2
            dsimp only at h
            cases hpp : readPayload f tid r4 with
            | error e => rw [hpp] at h; simp at h
            | ok q3 =>
              rw [hpp] at h
              obtain ⟨t1, r5⟩ := q3
              dsimp only at h
              exact ih _ r5 es r2 h
                (namesMatchE_mapSet nb (setName (some nb) t1)
                  (tagName_setName _ _) acc hacc)

/-- C10: `TagCompound.set` stores the tag under the key with its name
field assigned to that key, the name-equals-key invariant is preserved by
`set`, and every compound the decoder produces satisfies it. -/
theorem claim_C10 (es : Entries) (k : List Nat) (t : Tag) (fuel : Nat)
    (r r2 : Rd) (u : Tag)
    (hm : namesMatchE es = true)
    (hr : readPayload fuel 10 r = .ok (u, r2)) :
    mapGet k (compoundSet k t es) = some (setName (some k) t) ∧
    tagName (setName (some k) t) = some k ∧
    namesMatchE (compoundSet k t es) = true ∧
    ∃ es2, u = .tCompound none es2 ∧ namesMatchE es2 = true := by
  refine ⟨?_, tagName_setName _ _, ?_, ?_⟩
  · rw [compoundSet]
    exact mapGet_mapSet k (setName (some k) t) es
  · rw [compoundSet]
    exact namesMatchE_mapSet k (setName (some k) t) (tagName_setName _ _) es hm
  · cases fuel with
    | zero =>
      rw [readPayload_zero] at hr
      exact absurd hr (by simp)
    | succ f =>
      rw [rp_succ_10] at hr
      simp only [Except.bind, bind] at hr
      cases he : readEntries f .nil r with
      | error e => rw [he] at hr; simp at hr
      | ok q =>
        rw [he] at hr
        obtain ⟨es2, r3⟩ := q
        simp only [Except.ok.injEq, Prod.mk.injEq] at hr
        exact ⟨es2, hr.1.symm, readEntries_names f .nil r es2 r3 he rfl⟩

/-- C10 witness: storing an unnamed Int tag under key "k" names it "k",
and the compound decoded from the single terminator byte satisfies the
invariant. -/
theorem claim_C10_witness :
    mapGet [107] (compoundSet [107] (.tInt none 5) .nil) =
      some (setName (some [107]) (.tInt none 5)) ∧
    tagName (setName (some [107]) (.tInt none 5)) = some [107] ∧
    namesMatchE (compoundSet [107] (.tInt none 5) .nil) = true ∧
    ∃ es2, (Tag.tCompound none .nil) = .tCompound none es2 ∧
      namesMatchE es2 = true :=
  claim_C10 .nil [107] (.tInt none 5) 1 ⟨[0], 0⟩ ⟨[0], 1⟩
    (.tCompound none .nil) (by decide) (by decide)

/-! ## Claim C5 -/

/-- C5 (amended): when a present chunk (nonzero location word, sector
offset at least 2, in-range record, raw compression type) fails to
decode, `readChunk` catches the failure and answers `.ok none` — the
same value an absent slot yields, so the caller cannot distinguish the
two — rather than throwing; the slot still counts as present for
`hasChunk`. -/
theorem claim_C5 (dwa : CFormat → List Nat → Except NErr (List Nat))
    (fuel : Nat) (s : Buf) (x z : Nat) (info lengthU ct : Nat) (e : NErr)
    (hinfo : getOffsetInfo s x z = .ok info)
    (h0 : info ≠ 0)
    (hso : 2 ≤ info / 256)
    (hfo : info / 256 * 4096 < s.size)
    (hlen : dvGetU32 s (info / 256 * 4096) = .ok lengthU)
    (hct : dvGetU8 s (info / 256 * 4096 + 4) = .ok ct)
    (hct3 : ct = 3)
    (hrng : ¬ (toI32 lengthU - 1 ≤ 0 ∨
      ((info / 256 * 4096 : Nat) : Int) + 5 + (toI32 lengthU - 1) >
        (s.size : Int)))
    (hfail : tagIoRead fuel ((List.range (toI32 lengthU - 1).toNat).map
      (fun i => s.data (info / 256 * 4096 + 5 + i) % 256)) false =
      .error e) :
    readChunk dwa fuel s x z = .ok none ∧ hasChunk s x z = .ok true := by
  constructor
  · unfold readChunk
    simp only [Except.bind, bind]
    rw [hinfo]
    dsimp only
    rw [if_neg h0]
    rw [if_neg (by omega : ¬ info / 256 < 2)]
    rw [if_neg (by omega : ¬ info / 256 * 4096 ≥ s.size)]
    rw [hlen]
    dsimp only
    rw [hct]
    dsimp only
    rw [if_neg hrng]
    subst hct3
    rw [if_neg (by norm_num : ¬ (3 : Nat) = 1),
      if_neg (by norm_num : ¬ (3 : Nat) = 2), if_pos rfl]
    unfold tryParse
    simp only [Except.bind, bind]
    rw [hfail]
  · unfold hasChunk
    rw [hinfo]
    simp [Except.map, h0]

/-- C5 counterexample to "distinguishable from the absent result": in a
container whose slot (0,0) is present (`hasChunk` true) but holds a
corrupt record, `readChunk` answers exactly the `.ok none` it answers for
the genuinely absent slot (2,0); the corrupt slot does not abort reads of
the valid slot (1,0). -/
theorem claim_C5_counterexample :
    hasChunk corruptBuf 0 0 = .ok true ∧
    readChunk idDwa 50 corruptBuf 0 0 = .ok Option.none ∧
    hasChunk corruptBuf 2 0 = .ok false ∧
    readChunk idDwa 50 corruptBuf 2 0 = .ok Option.none ∧
    readChunk idDwa 50 corruptBuf 1 0 =
      .ok (some (.tCompound (some []) .nil)) := by
  refine ⟨by decide, by decide, by decide, by decide, by decide⟩

/-- C5 witness: the corrupt present slot (0,0) of the test container,
through the general theorem. -/
theorem claim_C5_witness :
    readChunk idDwa 50 corruptBuf 0 0 = .ok none ∧
    hasChunk corruptBuf 0 0 = .ok true :=
  claim_C5 idDwa 50 corruptBuf 0 0 513 2 3 (.rootNotCompound 7)
    (by decide) (by decide) (by decide) (by decide) (by decide) (by decide)
    (by decide) (by decide) (by decide)

/-! ## Claim C1 -/

/-- C1: starting from the empty 8192-byte container, `writeChunk(5,5,doc)`
succeeds, `readChunk(5,5)` returns a document structurally equal to
`doc`, `hasChunk(5,5)` is true, and every other slot stays absent.
`compress`/`dwa` are the external deflate codecs (inverse on the data at
hand), `now` the timestamp, and the compressed payload is nonempty,
within one location-entry sector budget, and byte-valued. -/
theorem claim_C1 (compress : List Nat → List Nat)
    (dwa : CFormat → List Nat → Except NErr (List Nat)) (now fuel : Nat)
    (nm : List Nat) (es : Entries) (nbt : List Nat)
    (hwf : wfTag (.tCompound (some nm) es) = true)
    (hw : tagIoWrite (.tCompound (some nm) es) false = .ok nbt)
    (hfuel : entriesFuel es ≤ fuel)
    (hdwa : dwa .deflate (compress nbt) = .ok nbt)
    (hpos : 0 < (compress nbt).length)
    (hcl : (compress nbt).length ≤ 1044475)
    (hbytes : (compress nbt).all (· < 256) = true) :
    (writeChunk compress now regionEmpty 5 5 (.tCompound (some nm) es)).1 =
      .ok () ∧
    readChunk dwa fuel
      (writeChunk compress now regionEmpty 5 5 (.tCompound (some nm) es)).2
      5 5 = .ok (some (.tCompound (some nm) es)) ∧
    hasChunk
      (writeChunk compress now regionEmpty 5 5 (.tCompound (some nm) es)).2
      5 5 = .ok true ∧
    (∀ x z, x < 32 → z < 32 → ¬ (x = 5 ∧ z = 5) →
      hasChunk
        (writeChunk compress now regionEmpty 5 5 (.tCompound (some nm) es)).2
        x z = .ok false) := by
  obtain ⟨g1, g2, g3, g4, g5, g6, g7, g8, g9⟩ :=
    writeChunk_append compress now regionEmpty 5 5 (.tCompound (some nm) es)
      nbt 0 (by decide) hw (by decide) (by omega) (by decide) (by omega)
  have hrs : regionEmpty.size = 8192 := rfl
  rw [hrs] at g2 g3 g5 g6 g7 g8 g9
  rw [(by norm_num : (8192 + 4095) / 4096 = 2)] at g2 g3 g6 g7 g8 g9
  rw [(by norm_num : (2 : Nat) * 4096 = 8192)] at g2 g6 g7 g8 g9
  rw [(by norm_num : (2 : Nat) * 256 = 512)] at g3
  have hsn1 : 1 ≤ (4 + ((compress nbt).length + 1) + 4095) / 4096 := by omega
  have hsn255 : (4 + ((compress nbt).length + 1) + 4095) / 4096 ≤ 255 := by
    omega
  have hcap : (compress nbt).length + 5 ≤
      (4 + ((compress nbt).length + 1) + 4095) / 4096 * 4096 := by omega
  have hgo : getOffsetInfo
      (writeChunk compress now regionEmpty 5 5 (.tCompound (some nm) es)).2
      5 5 = .ok (512 + (4 + ((compress nbt).length + 1) + 4095) / 4096) := by
    unfold getOffsetInfo
    apply dvGetU32_bytes (by rw [g2]; have := chunkIndex_lt 5 5; omega)
      (by omega)
    intro j hj
    exact g3 j hj
  refine ⟨g1, ?_, ?_, ?_⟩
  · unfold readChunk
    simp only [Except.bind, bind]
    rw [hgo]
    dsimp only
    rw [if_neg (by omega :
      ¬ (512 + (4 + ((compress nbt).length + 1) + 4095) / 4096 = 0))]
    rw [(by omega :
      (512 + (4 + ((compress nbt).length + 1) + 4095) / 4096) / 256 = 2)]
    rw [if_neg (by norm_num : ¬ (2 : Nat) < 2)]
    rw [if_neg (show ¬ (2 * 4096 : Nat) ≥
      (writeChunk compress now regionEmpty 5 5
        (.tCompound (some nm) es)).2.size by rw [g2]; omega)]
    have hlen2 : dvGetU32
        (writeChunk compress now regionEmpty 5 5 (.tCompound (some nm) es)).2
        (2 * 4096) = .ok ((compress nbt).length + 1) := by
      apply dvGetU32_bytes (by rw [g2]; omega) (by omega)
      intro j hj
      rw [show (2 * 4096 : Nat) + j = 8192 + j from by norm_num]
      exact g6 j hj
    rw [hlen2]
    dsimp only
    have hct2 : dvGetU8
        (writeChunk compress now regionEmpty 5 5 (.tCompound (some nm) es)).2
        (2 * 4096 + 4) = .ok 2 := by
      unfold dvGetU8
      rw [if_pos (by rw [g2]; omega)]
      rw [show (2 * 4096 : Nat) + 4 = 8192 + 4 from by norm_num, g7]
    rw [hct2]
    dsimp only
    rw [toI32_small (by omega)]
    rw [(by push_cast; ring :
      (((compress nbt).length + 1 : Nat) : Int) - 1 =
        ((compress nbt).length : Int))]
    rw [if_neg (show ¬ (((compress nbt).length : Int) ≤ 0 ∨
        ((2 * 4096 : Nat) : Int) + 5 + ((compress nbt).length : Int) >
          (((writeChunk compress now regionEmpty 5 5
            (.tCompound (some nm) es)).2.size : Nat) : Int)) by
      rw [g2]
      push_cast
      omega)]
    have hraw : (List.range ((compress nbt).length : Int).toNat).map
        (fun i => (writeChunk compress now regionEmpty 5 5
          (.tCompound (some nm) es)).2.data (2 * 4096 + 5 + i) % 256) =
        compress nbt := by
      rw [Int.toNat_natCast]
      apply range_map_getD rfl
      intro i hi
      rw [show (2 * 4096 : Nat) + 5 + i = 8192 + 5 + i from by norm_num,
        g8 i hi]
      have := getD_lt_of_all hbytes hi
      omega
    rw [hraw]
    rw [if_neg (by norm_num : ¬ (2 : Nat) = 1), if_pos rfl]
    unfold tryParse
    simp only [Except.bind, bind]
    rw [hdwa]
    dsimp only
    rw [tagIo_rt nm es nbt fuel hwf hw hfuel]
  · unfold hasChunk
    rw [hgo]
    have : 512 + (4 + ((compress nbt).length + 1) + 4095) / 4096 ≠ 0 := by
      omega
    simp [Except.map, this]
  · intro x z hx hz hne
    have hlt := chunkIndex_lt x z
    have hii : chunkIndex x z ≠ chunkIndex 5 5 := by
      rw [(by decide : chunkIndex 5 5 = 165)]
      unfold chunkIndex
      omega
    have hgo0 : getOffsetInfo
        (writeChunk compress now regionEmpty 5 5 (.tCompound (some nm) es)).2
        x z = .ok 0 := by
      unfold getOffsetInfo
      apply dvGetU32_bytes (by rw [g2]; omega) (by norm_num)
      intro j hj
      rw [g5 (chunkIndex x z * 4 + j) (by omega) (by omega) (by omega)]
      rw [encU32_zero]
      rfl
    unfold hasChunk
    rw [hgo0]
    simp [Except.map]

/-- C1 witness: writing a one-entry document into slot (5,5) of the empty
container and reading it back, with identity codecs. -/
theorem claim_C1_witness :
    (writeChunk idCompress 0 regionEmpty 5 5 smallDoc).1 = .ok () ∧
    readChunk idDwa 50 (writeChunk idCompress 0 regionEmpty 5 5 smallDoc).2
      5 5 = .ok (some smallDoc) ∧
    hasChunk (writeChunk idCompress 0 regionEmpty 5 5 smallDoc).2 5 5 =
      .ok true ∧
    hasChunk (writeChunk idCompress 0 regionEmpty 5 5 smallDoc).2 6 5 =
      .ok false := by
  have h := claim_C1 idCompress idDwa 0 50 []
    (.cons [104] (.tInt (some [104]) 7) .nil)
    [10, 0, 0, 3, 0, 1, 104, 0, 0, 0, 7, 0]
    (by decide) (by decide) (by decide) (by decide) (by decide) (by decide)
    (by decide)
  exact ⟨h.1, h.2.1, h.2.2.1, h.2.2.2 6 5 (by decide) (by decide) (by decide)⟩

end AWE
